import Mathlib

/-!
# Verification of the chunked attention reference (`rabe_attention.py`)

A shallow embedding, over exact real arithmetic, of the two chunked
attention pipelines of `flash_attention_jax/rabe_attention.py`:

* Pipeline A: `_query_chunk_attention` / `rabe_attention` (stabilized
  softmax attention);
* Pipeline B: `_query_chunk_cosine_sim_attention` /
  `rabe_cosine_sim_attention` (cosine-similarity variant), together with
  its `l2norm` preprocessing.

Dense 2-D arrays are embedded as `List (List ℝ)` (rows of entries).  The
external array primitives used by the source are modelled as follows:

* `jnp.einsum` (with any precision setting) is exact matrix
  contraction;
* `lax.dynamic_slice` is the *clamped* slice: a start index is clamped
  so that the requested window stays inside the array
  (`min start (len - size)`), exactly as documented for JAX;
* `jnp.arange(0, n, s)` produces the starts `0, s, 2s, ...`
  (`⌈n / s⌉` of them);
* `jnp.max` / `jnp.exp` / sums are the corresponding exact operations;
* `.reshape(r, c)` succeeds exactly when the number of scalars matches
  `r * c` (NumPy semantics: reshape never truncates), hence the outer
  drivers return `Option` — `none` models the reshape error;
* `jax.lax.stop_gradient` and `jax.checkpoint` are identities on the
  forward computation embedded here.
-/

set_option maxHeartbeats 1600000

namespace Rabe

noncomputable section

/-- A dense 2-D real array: a list of rows. -/
abbrev Mat := List (List ℝ)

/-- Entry `i j` of a matrix (`0` outside the stored data). -/
def entry (m : Mat) (i j : Nat) : ℝ := (m.getD i []).getD j 0

/-- Dot product of two rows (`jnp` contraction over the shared axis). -/
def dotRow (a b : List ℝ) : ℝ := (List.zipWith (fun x y => x * y) a b).sum

/-- `A · Bᵀ` with `B` given by rows — the contraction
`einsum('qd, kd -> qk', A, B)`. -/
def mulMT (A B : Mat) : Mat := A.map fun ar => B.map fun br => dotRow ar br

/-- Standard matrix product `A · B`: used for
`einsum('vf, qv -> qf', B, A)`, whose `(i, j)` entry is
`Σ_t A[i][t] * B[t][j]`. -/
def matMul (A B : Mat) : Mat :=
  A.map fun ar =>
    (List.range ((B.head?.getD []).length)).map fun j =>
      (List.zipWith (fun x br => x * br.getD j 0) ar B).sum

/-- Row-wise maximum (`jnp.max` over the last axis; the source only
applies it to non-empty rows). -/
def listMax : List ℝ → ℝ
  | [] => 0
  | [x] => x
  | x :: y :: t => max x (listMax (y :: t))

/-- `lax.dynamic_slice` along one axis: the start index is clamped so
that the window of `size` elements stays in bounds. -/
def dynamicSlice (xs : List α) (start size : Nat) : List α :=
  (xs.drop (min start (xs.length - size))).take size

/-- `lax.dynamic_slice` on a 2-D array with start `(i, j)` and sizes
`(si, sj)`. -/
def dynamicSlice2 (m : Mat) (i j si sj : Nat) : Mat :=
  (dynamicSlice m i si).map fun r => dynamicSlice r j sj

/-- `⌈a / b⌉` on naturals, as computed by `math.ceil(a / b)` for `b > 0`. -/
def ceilDiv (a b : Nat) : Nat := (a + b - 1) / b

/-- The chunk start offsets `jnp.arange(0, len, step)`. -/
def chunkStarts (len step : Nat) : List Nat :=
  (List.range (ceilDiv len step)).map fun t => t * step

/-- The key/value tile pairs consumed by the inner reducers: clamped
dynamic slices of `k` and `v` of `min kcs k.length` rows taken at starts
`0, step, 2·step, ...` (the slices performed by `chunk_scanner`). -/
def kvTiles (k v : Mat) (kcs : Nat) : List (Mat × Mat) :=
  let kLen := k.length
  let dim := (k.head?.getD []).length
  let vDim := (v.head?.getD []).length
  let step := min kcs kLen
  (chunkStarts kLen step).map fun idx =>
    (dynamicSlice2 k idx 0 step dim, dynamicSlice2 v idx 0 step vDim)

/-- `summarize_chunk` of `_query_chunk_attention`: local unnormalized
values, local weight sums and the (stop-gradient) row maxima for one
key/value tile.  `jax.checkpoint` and `stop_gradient` are forward
identities. -/
def summarize_chunk (q k v : Mat) : Mat × List ℝ × List ℝ :=
  let attn := mulMT q k
  let maxs := attn.map listMax
  let expw := List.zipWith (fun row m => row.map fun x => Real.exp (x - m)) attn maxs
  (matMul expw v, expw.map List.sum, maxs)

/-- The stacked per-tile results of `jax.lax.map(chunk_scanner, ...)` in
`_query_chunk_attention`: the query tile is pre-scaled by
`1 / sqrt(dim)` and `summarize_chunk` is applied to every clamped
key/value tile (`chunk_values`, `chunk_weights`, `chunk_max` are the
three projections of this list). -/
def attnChunkResults (q k v : Mat) (kcs : Nat) : List (Mat × List ℝ × List ℝ) :=
  let dim := (k.head?.getD []).length
  let qs := q.map fun r => r.map fun x => x / Real.sqrt dim
  (kvTiles k v kcs).map fun kv => summarize_chunk qs kv.1 kv.2

/-- `global_max = jnp.max(chunk_max, axis = 0)`: entry `i` is the
maximum over tiles of the per-tile row maxima at query row `i`. -/
def attnGlobalMax (q k v : Mat) (kcs : Nat) : List ℝ :=
  (List.range q.length).map fun i =>
    listMax ((attnChunkResults q k v kcs).map fun r => r.2.2.getD i 0)

/-- `_query_chunk_attention` up to (but excluding) the final division:
the accumulated rescaled value sums `all_values` and the accumulated
rescaled weight sums `all_weights` (sums over the tile axis of the
`exp(chunk_max - global_max)`-rescaled per-tile results). -/
def _query_chunk_attention_parts (q k v : Mat) (kcs : Nat) : Mat × List ℝ :=
  let results := attnChunkResults q k v kcs
  let globalMax := attnGlobalMax q k v kcs
  let maxDiffs := results.map fun r =>
    List.zipWith (fun x g => Real.exp (x - g)) r.2.2 globalMax
  let cv := List.zipWith (fun m d => List.zipWith (fun row di => row.map fun x => x * di) m d)
    (results.map fun r => r.1) maxDiffs
  let cw := List.zipWith (List.zipWith (fun x y => x * y)) (results.map fun r => r.2.1) maxDiffs
  let allValues := (List.range q.length).map fun i =>
    (List.range (v.head?.getD []).length).map fun j => (cv.map fun m => entry m i j).sum
  let allWeights := (List.range q.length).map fun i => (cw.map fun w => w.getD i 0).sum
  (allValues, allWeights)

/-- `_query_chunk_attention`: normalized attention output of one query
tile against the full `k`, `v` (Pipeline A inner reducer). -/
def _query_chunk_attention (q k v : Mat) (kcs : Nat) : Mat :=
  let p := _query_chunk_attention_parts q k v kcs
  List.zipWith (fun row w => row.map fun x => x / w) p.1 p.2

/-- `.reshape(r, c)` of the stacked per-tile outputs: succeeds exactly
when the total number of scalars is `r * c`. -/
def reshapeStack (res : List Mat) (r c : Nat) : Option Mat :=
  let flat := res.flatten.flatten
  if flat.length = r * c then
    some ((List.range r).map fun i => (flat.drop (i * c)).take c)
  else none

/-- `rabe_attention`: the Pipeline A entry point.  The outer driver
slices `q` into tiles of `min q_chunk_size q_len` rows at starts
`0, q_chunk_size, 2·q_chunk_size, ...` (`⌈q_len / q_chunk_size⌉`
iterations of `lax.scan`), runs the inner reducer on each tile and
reshapes the stacked results to `(q_len, v_dim)`. -/
def rabe_attention (q k v : Mat) (q_chunk_size : Nat := 1024) (k_chunk_size : Nat := 4096) :
    Option Mat :=
  let q_len := q.length
  let dim := (q.head?.getD []).length
  let v_dim := (v.head?.getD []).length
  let res := (List.range (ceilDiv q_len q_chunk_size)).map fun t =>
    _query_chunk_attention (dynamicSlice2 q (t * q_chunk_size) 0 (min q_chunk_size q_len) dim)
      k v k_chunk_size
  reshapeStack res q_len v_dim

/-- The Frobenius norm `jnp.linalg.norm(t)` of a 2-D array (the default
`ord = None`, `axis = None` collapses the whole array). -/
def frobNorm (t : Mat) : ℝ :=
  Real.sqrt ((t.map fun r => (r.map fun x => x ^ 2).sum).sum)

/-- `l2norm` of the source: divides every entry of `t` by the Frobenius
norm of the *whole* array plus `eps` (built-in default `1e-6`). -/
def l2norm (t : Mat) (eps : ℝ := 1e-6) : Mat :=
  t.map fun r => r.map fun x => x / (frobNorm t + eps)

/-- `summarize_chunk` of `_query_chunk_cosine_sim_attention`: the scores
are `scale * (q · kᵀ)`; the value sum uses the *pre-exponential* scores
while the weight sum uses the exponentiated scores (faithful to the
source). -/
def summarize_chunk_cosine (scale : ℝ) (q k v : Mat) : Mat × List ℝ :=
  let attn := (mulMT q k).map fun r => r.map fun x => x * scale
  let expw := attn.map fun r => r.map Real.exp
  (matMul attn v, expw.map List.sum)

/-- The stacked per-tile results of `jax.lax.map(chunk_scanner, ...)` in
`_query_chunk_cosine_sim_attention`. -/
def cosChunkResults (scale : ℝ) (q k v : Mat) (kcs : Nat) : List (Mat × List ℝ) :=
  (kvTiles k v kcs).map fun kv => summarize_chunk_cosine scale q kv.1 kv.2

/-- `_query_chunk_cosine_sim_attention` up to (but excluding) the final
division: accumulated value sums and accumulated weight sums (plain
sums over the tile axis — Pipeline B performs no rescaling). -/
def _query_chunk_cosine_sim_attention_parts (q k v : Mat) (kcs : Nat) (scale : ℝ) :
    Mat × List ℝ :=
  let results := cosChunkResults scale q k v kcs
  let allValues := (List.range q.length).map fun i =>
    (List.range (v.head?.getD []).length).map fun j => (results.map fun r => entry r.1 i j).sum
  let allWeights := (List.range q.length).map fun i => (results.map fun r => r.2.getD i 0).sum
  (allValues, allWeights)

/-- `_query_chunk_cosine_sim_attention`: Pipeline B inner reducer. -/
def _query_chunk_cosine_sim_attention (q k v : Mat) (kcs : Nat) (scale : ℝ) : Mat :=
  let p := _query_chunk_cosine_sim_attention_parts q k v kcs scale
  List.zipWith (fun row w => row.map fun x => x / w) p.1 p.2

/-- `rabe_cosine_sim_attention`: the Pipeline B entry point.  `q` and
`k` are passed through `l2norm` (with `l2norm`'s *own default* `eps`;
the `eps` parameter of this function is never forwarded), then the same
outer driver as Pipeline A runs the cosine-sim inner reducer. -/
def rabe_cosine_sim_attention (q k v : Mat) (q_chunk_size : Nat := 1024)
    (k_chunk_size : Nat := 4096) (scale : ℝ := 16) (eps : ℝ := 1e-5) : Option Mat :=
  let q_len := q.length
  let dim := (q.head?.getD []).length
  let v_dim := (v.head?.getD []).length
  let qn := l2norm q
  let kn := l2norm k
  let res := (List.range (ceilDiv q_len q_chunk_size)).map fun t =>
    _query_chunk_cosine_sim_attention
      (dynamicSlice2 qn (t * q_chunk_size) 0 (min q_chunk_size q_len) dim)
      kn v k_chunk_size scale
  reshapeStack res q_len v_dim

/-! ## Specification-side definitions

These follow the wording of the specification, for the refinement
claims; they are *not* read off the source. -/

/-- One row of the direct (unchunked) softmax attention
`softmax(Q Kᵀ / sqrt(head_dim)) V`: entry `j` is
`Σ_t exp(s_t) V[t][j] / Σ_t exp(s_t)` with `s_t = (qr · k_t)/√dim`
(the softmax weights written out). -/
def naiveRow (k v : Mat) (qr : List ℝ) : List ℝ :=
  let dim := (k.head?.getD []).length
  let w := k.map fun kr => Real.exp (dotRow qr kr / Real.sqrt dim)
  (List.range ((v.head?.getD []).length)).map fun j =>
    (List.zipWith (fun wi vr => wi * vr.getD j 0) w v).sum / w.sum

/-- The direct (unchunked) softmax attention of the spec:
`softmax(Q Kᵀ / sqrt(head_dim)) V`, row by row. -/
def naiveAttention (q k v : Mat) : Mat := q.map (naiveRow k v)

/-- Modelled from the spec: row-wise L2 normalization,
`row / (‖row‖₂ + eps)` independently for every row (spec §4.3; the
source's `l2norm` is compared against this). -/
def rowwiseL2norm (t : Mat) (eps : ℝ) : Mat :=
  t.map fun r => r.map fun x => x / (Real.sqrt ((r.map fun y => y ^ 2).sum) + eps)

/-- The direct (unchunked) softmax attention on row-wise L2-normalized
inputs with temperature `scale`, as described for Pipeline B by the
spec: `softmax(scale · Qn Knᵀ) V` with `Qn, Kn` the row-normalized
queries and keys. -/
def naiveCosineSimAttention (q k v : Mat) (scale eps : ℝ) : Mat :=
  let qn := rowwiseL2norm q eps
  let kn := rowwiseL2norm k eps
  qn.map fun qr =>
    let w := kn.map fun kr => Real.exp (dotRow qr kr * scale)
    (List.range ((v.head?.getD []).length)).map fun j =>
      (List.zipWith (fun wi vr => wi * vr.getD j 0) w v).sum / w.sum

/-- Reference (derived) characterization of one row of the *unchunked*
Pipeline B computation on already-normalized inputs: the value sum uses
the pre-exponential scores, the weight sum the exponentiated ones. -/
def cosineRefRow (scale : ℝ) (k v : Mat) (qr : List ℝ) : List ℝ :=
  (List.range ((v.head?.getD []).length)).map fun j =>
    (List.zipWith (fun kr vr => dotRow qr kr * scale * vr.getD j 0) k v).sum /
      (k.map fun kr => Real.exp (dotRow qr kr * scale)).sum

/-- Reference (derived) characterization of the full unchunked
Pipeline B computation on already-normalized inputs. -/
def cosineRef (scale : ℝ) (q k v : Mat) : Mat := q.map (cosineRefRow scale k v)

/-- Rows of `m` all have length `c`. -/
def uniformRows (m : Mat) (c : Nat) : Prop := ∀ r ∈ m, r.length = c

/-! ## Per-row characterization formulas

A (pre-scaled) query row `a` is processed identically by every part of
the inner reducers; these formulas name the per-tile and per-row
quantities that the characterization lemmas below extract from the
embedded source definitions. -/

/-- The scores of one query row against the rows of one key tile. -/
def tileScores (a : List ℝ) (kt : Mat) : List ℝ := kt.map fun kr => dotRow a kr

/-- The per-tile row maximum (`max_score` of `summarize_chunk`). -/
def tileMaxA (a : List ℝ) (kt : Mat) : ℝ := listMax (tileScores a kt)

/-- The per-tile weight sum `exp_weights.sum` of `summarize_chunk`. -/
def tileWeightA (a : List ℝ) (kt : Mat) : ℝ :=
  ((tileScores a kt).map fun s => Real.exp (s - tileMaxA a kt)).sum

/-- Entry `j` of the per-tile value sum `exp_values` of
`summarize_chunk`, for one query row. -/
def tileValueA (a : List ℝ) (kt vt : Mat) (j : Nat) : ℝ :=
  (List.zipWith (fun kr vr => Real.exp (dotRow a kr - tileMaxA a kt) * vr.getD j 0) kt vt).sum

/-- The global (across-tiles) row maximum of Pipeline A. -/
def globalMaxA (a : List ℝ) (k v : Mat) (kcs : Nat) : ℝ :=
  listMax ((kvTiles k v kcs).map fun kv => tileMaxA a kv.1)

/-- Entry `j` of the accumulated rescaled value sum of Pipeline A for
one query row. -/
def rowNumA (a : List ℝ) (k v : Mat) (kcs : Nat) (j : Nat) : ℝ :=
  ((kvTiles k v kcs).map fun kv =>
    tileValueA a kv.1 kv.2 j * Real.exp (tileMaxA a kv.1 - globalMaxA a k v kcs)).sum

/-- The accumulated rescaled weight sum of Pipeline A for one query
row. -/
def rowDenA (a : List ℝ) (k v : Mat) (kcs : Nat) : ℝ :=
  ((kvTiles k v kcs).map fun kv =>
    tileWeightA a kv.1 * Real.exp (tileMaxA a kv.1 - globalMaxA a k v kcs)).sum

/-- Entry `j` of the per-tile value sum of Pipeline B for one query row
(pre-exponential scores). -/
def tileValueB (scale : ℝ) (a : List ℝ) (kt vt : Mat) (j : Nat) : ℝ :=
  (List.zipWith (fun kr vr => dotRow a kr * scale * vr.getD j 0) kt vt).sum

/-- The per-tile weight sum of Pipeline B for one query row
(exponentiated scores). -/
def tileWeightB (scale : ℝ) (a : List ℝ) (kt : Mat) : ℝ :=
  (kt.map fun kr => Real.exp (dotRow a kr * scale)).sum

/-- Entry `j` of the accumulated value sum of Pipeline B for one query
row. -/
def rowNumB (scale : ℝ) (a : List ℝ) (k v : Mat) (kcs : Nat) (j : Nat) : ℝ :=
  ((kvTiles k v kcs).map fun kv => tileValueB scale a kv.1 kv.2 j).sum

/-- The accumulated weight sum of Pipeline B for one query row. -/
def rowDenB (scale : ℝ) (a : List ℝ) (k v : Mat) (kcs : Nat) : ℝ :=
  ((kvTiles k v kcs).map fun kv => tileWeightB scale a kv.1).sum

/-! ## Generic list and index lemmas -/

theorem getD_map_of_lt (f : α → β) (l : List α) {i : Nat} (h : i < l.length) (d : β) (d' : α) :
    (l.map f).getD i d = f (l.getD i d') := by
  rw [List.getD_eq_getElem _ _ (by simpa using h), List.getD_eq_getElem _ _ h, List.getElem_map]

theorem getD_range_map (f : Nat → α) {n i : Nat} (h : i < n) (d : α) :
    ((List.range n).map f).getD i d = f i := by
  rw [getD_map_of_lt f _ (by simpa using h) d 0,
    List.getD_eq_getElem _ _ (by simpa using h), List.getElem_range]

theorem getD_zipWith (f : α → β → γ) {l1 : List α} {l2 : List β} {i : Nat}
    (h1 : i < l1.length) (h2 : i < l2.length) (d : γ) (d1 : α) (d2 : β) :
    (List.zipWith f l1 l2).getD i d = f (l1.getD i d1) (l2.getD i d2) := by
  rw [List.getD_eq_getElem _ _ (by simp [List.length_zipWith]; omega),
    List.getD_eq_getElem _ _ h1, List.getD_eq_getElem _ _ h2, List.getElem_zipWith]

theorem zipWith_map_same (g : β → γ → δ) (f1 : α → β) (f2 : α → γ) (l : List α) :
    List.zipWith g (l.map f1) (l.map f2) = l.map fun x => g (f1 x) (f2 x) := by
  induction l with
  | nil => rfl
  | cons x t ih => simp only [List.map_cons, List.zipWith_cons_cons, ih]

theorem sum_mul_right (l : List ℝ) (c : ℝ) : l.sum * c = (l.map fun x => x * c).sum := by
  induction l with
  | nil => simp
  | cons x t ih => simp only [List.map_cons, List.sum_cons, ← ih]; ring

theorem sum_congr_map {l : List α} {f g : α → ℝ} (h : ∀ x ∈ l, f x = g x) :
    (l.map f).sum = (l.map g).sum := by
  rw [List.map_congr_left h]

/-! ### `listMax` -/

theorem listMax_cons (x : ℝ) {l : List ℝ} (h : l ≠ []) :
    listMax (x :: l) = max x (listMax l) := by
  cases l with
  | nil => exact absurd rfl h
  | cons y t => rfl

theorem listMax_append {l1 l2 : List ℝ} (h1 : l1 ≠ []) (h2 : l2 ≠ []) :
    listMax (l1 ++ l2) = max (listMax l1) (listMax l2) := by
  induction l1 with
  | nil => exact absurd rfl h1
  | cons x t ih =>
    cases t with
    | nil => simpa using listMax_cons x h2
    | cons y s =>
      rw [List.cons_append, listMax_cons x (by simp), listMax_cons x (by simp),
        ih (by simp), max_assoc]

theorem flatten_ne_nil {ls : List (List α)} (h0 : ls ≠ []) (h : ∀ l ∈ ls, l ≠ []) :
    ls.flatten ≠ [] := by
  cases ls with
  | nil => exact absurd rfl h0
  | cons l t =>
    have hl : l ≠ [] := h l (by simp)
    cases l with
    | nil => exact absurd rfl hl
    | cons a b => simp

theorem listMax_flatten {ls : List (List ℝ)} (h0 : ls ≠ []) (h : ∀ l ∈ ls, l ≠ []) :
    listMax ls.flatten = listMax (ls.map listMax) := by
  induction ls with
  | nil => exact absurd rfl h0
  | cons l t ih =>
    cases ht : t with
    | nil => simp [listMax]
    | cons l2 t2 =>
      have htne : t ≠ [] := by simp [ht]
      have hmem : ∀ x ∈ t, x ≠ [] := fun x hx => h x (by simp [hx])
      have hfl : t.flatten ≠ [] := flatten_ne_nil htne hmem
      rw [← ht, List.flatten_cons, listMax_append (h l (by simp)) hfl, ih htne hmem,
        List.map_cons, listMax_cons _ (by simp [ht])]

theorem listSumPos {l : List ℝ} (h0 : l ≠ []) (h : ∀ x ∈ l, 0 < x) : 0 < l.sum :=
  List.sum_pos l h h0

/-! ### Arithmetic on chunk counts -/

theorem ceilDiv_mul {step : Nat} (m : Nat) (h : 0 < step) : ceilDiv (step * m) step = m := by
  unfold ceilDiv
  have h1 : step * m + step - 1 = step * m + (step - 1) := by omega
  rw [h1, Nat.mul_add_div h, Nat.div_eq_of_lt (by omega), Nat.add_zero]

theorem ceilDiv_one_of_le {a b : Nat} (h1 : 0 < a) (h2 : a ≤ b) : ceilDiv a b = 1 := by
  unfold ceilDiv
  have hlo : 1 * b ≤ a + b - 1 := by omega
  have hhi : a + b - 1 < (1 + 1) * b := by omega
  exact Nat.div_eq_of_lt_le hlo hhi

theorem ceilDiv_pos {a b : Nat} (h1 : 0 < a) (h2 : 0 < b) : 0 < ceilDiv a b := by
  unfold ceilDiv
  exact Nat.div_pos (by omega) h2

/-! ### `dynamicSlice` -/

theorem dynamicSlice_length {xs : List α} {size : Nat} (start : Nat) (h : size ≤ xs.length) :
    (dynamicSlice xs start size).length = size := by
  unfold dynamicSlice
  rw [List.length_take, List.length_drop]
  omega

theorem dynamicSlice_of_le {xs : List α} {start size : Nat} (h : start + size ≤ xs.length) :
    dynamicSlice xs start size = (xs.drop start).take size := by
  unfold dynamicSlice
  have hmin : min start (xs.length - size) = start := by omega
  rw [hmin]

theorem dynamicSlice2_eq {m : Mat} {w : Nat} (hm : uniformRows m w) (i s : Nat) :
    dynamicSlice2 m i 0 s w = dynamicSlice m i s := by
  unfold dynamicSlice2
  have hrow : ∀ r ∈ dynamicSlice m i s, dynamicSlice r 0 w = r := by
    intro r hr
    have hmem : r ∈ m := by
      unfold dynamicSlice at hr
      exact List.mem_of_mem_drop (List.mem_of_mem_take hr)
    have hl : r.length = w := hm r hmem
    unfold dynamicSlice
    rw [Nat.min_comm, Nat.min_zero, List.drop_zero, ← hl, List.take_length]
  rw [List.map_congr_left hrow, List.map_id']

/-! ### Partition of a list into chunks -/

theorem chunkStarts_zero (step : Nat) : chunkStarts 0 step = [] := by
  unfold chunkStarts ceilDiv
  rcases Nat.eq_zero_or_pos step with h | h
  · simp [h]
  · rw [Nat.div_eq_of_lt (by omega)]
    rfl

theorem chunks_flatten_aux {α : Type _} (step : Nat) (h : 0 < step) :
    ∀ (m : Nat) (w : List α), w.length = step * m →
      ((chunkStarts w.length step).map fun x => dynamicSlice w x step).flatten = w := by
  intro m
  induction m with
  | zero =>
    intro w hw
    have hnil : w = [] := List.length_eq_zero.mp (by omega)
    subst hnil
    simp [chunkStarts_zero]
  | succ m ih =>
    intro w hw
    have hlen : w.length = step * (m + 1) := hw
    have hcount : ceilDiv w.length step = m + 1 := by rw [hlen, ceilDiv_mul _ h]
    unfold chunkStarts
    rw [hcount, List.range_succ_eq_map]
    simp only [List.map_cons, List.map_map, Function.comp_def]
    have hfirst : dynamicSlice w (0 * step) step = w.take step := by
      unfold dynamicSlice
      rw [Nat.zero_mul, Nat.zero_min, List.drop_zero]
    have hrest : ∀ t ∈ List.range m,
        dynamicSlice w (Nat.succ t * step) step =
          dynamicSlice (w.drop step) (t * step) step := by
      intro t ht
      have htm : t < m := List.mem_range.mp ht
      unfold dynamicSlice
      have hexp : step * (m + 1) = step * m + step := by rw [Nat.mul_add, Nat.mul_one]
      have hle : t * step + step ≤ step * m := by
        have h1 := Nat.mul_le_mul_right step (show t + 1 ≤ m by omega)
        rw [Nat.add_mul, Nat.one_mul, Nat.mul_comm m step] at h1
        exact h1
      have hmin1 : min (Nat.succ t * step) (w.length - step) = t * step + step := by
        rw [Nat.succ_mul, hlen]
        omega
      have hmin2 : min (t * step) ((w.drop step).length - step) = t * step := by
        rw [List.length_drop, hlen]
        omega
      rw [hmin1, hmin2, List.drop_drop]
      congr 2
      omega
    rw [List.map_congr_left hrest]
    have hdroplen : (w.drop step).length = step * m := by
      have hexp : step * (m + 1) = step * m + step := by rw [Nat.mul_add, Nat.mul_one]
      rw [List.length_drop, hlen]
      omega
    have hihs := ih (w.drop step) hdroplen
    unfold chunkStarts at hihs
    rw [hdroplen, ceilDiv_mul _ h, List.map_map] at hihs
    simp only [Function.comp_def] at hihs
    rw [List.flatten_cons, hihs, hfirst, List.take_append_drop]

/-- In the exactly-divisible case the clamped tiles of size `step` at
starts `0, step, 2·step, ...` concatenate back to the original list. -/
theorem chunks_flatten {α : Type _} {w : List α} {step : Nat} (h : 0 < step)
    (hd : step ∣ w.length) :
    ((chunkStarts w.length step).map fun x => dynamicSlice w x step).flatten = w := by
  obtain ⟨m, hm⟩ := hd
  exact chunks_flatten_aux step h m w hm

theorem flatten_length_uniform {m : List (List α)} {c : Nat} (hm : ∀ r ∈ m, r.length = c) :
    m.flatten.length = m.length * c := by
  rw [List.length_flatten]
  have : m.map List.length = m.map (Function.const _ c) := List.map_congr_left hm
  rw [this, List.map_const, List.sum_replicate, smul_eq_mul, Nat.mul_comm]

theorem reshape_rows {α : Type _} {c : Nat} :
    ∀ (m : List (List α)), (∀ r ∈ m, r.length = c) →
      ((List.range m.length).map fun i => (m.flatten.drop (i * c)).take c) = m := by
  intro m
  induction m with
  | nil => simp
  | cons r t ih =>
    intro hm
    have hr : r.length = c := hm r (by simp)
    rw [List.length_cons, List.range_succ_eq_map, List.map_cons, List.map_map]
    have hfirst : ((r :: t).flatten.drop (0 * c)).take c = r := by
      rw [Nat.zero_mul, List.drop_zero, List.flatten_cons, ← hr, List.take_left]
    have hrest : ∀ i ∈ List.range t.length,
        ((fun i => ((r :: t).flatten.drop (i * c)).take c) ∘ Nat.succ) i =
          (t.flatten.drop (i * c)).take c := by
      intro i hi
      simp only [Function.comp]
      rw [List.flatten_cons]
      have hidx : Nat.succ i * c = r.length + i * c := by
        rw [Nat.succ_mul, hr]
        omega
      rw [hidx, List.drop_append]
    rw [hfirst, List.map_congr_left hrest, ih fun x hx => hm x (by simp [hx])]

theorem getD_flatten_uniform {α : Type _} {c : Nat} {ms : List (List α)}
    (hm : ∀ r ∈ ms, r.length = c) {i : Nat} (hi : i < ms.length * c) (d : α) :
    ms.flatten.getD i d = (ms.getD (i / c) []).getD (i % c) d := by
  induction ms generalizing i with
  | nil => simp at hi
  | cons r t ih =>
    have hr : r.length = c := hm r (by simp)
    have hc : 0 < c := by
      rcases Nat.eq_zero_or_pos c with h0 | h0
      · subst h0; simp at hi
      · exact h0
    rw [List.flatten_cons]
    by_cases h : i < c
    · rw [List.getD_append _ _ _ _ (by omega), Nat.div_eq_of_lt h, Nat.mod_eq_of_lt h,
        List.getD_cons_zero]
    · rw [List.getD_append_right _ _ _ _ (by omega), hr,
        Nat.div_eq_sub_div hc (by omega), Nat.mod_eq_sub_mod (by omega)]
      have hlt : i - c < t.length * c := by
        rcases Nat.lt_or_ge (i - c) (t.length * c) with hx | hx
        · exact hx
        · exfalso
          have : (r :: t).length * c = c + t.length * c := by
            rw [List.length_cons]; ring
          omega
      rw [List.getD_cons_succ]
      exact ih (fun x hx => hm x (by simp [hx])) hlt

/-! ### Dot-product helpers -/

theorem dotRow_map_div (a b : List ℝ) (c : ℝ) :
    dotRow (a.map fun x => x / c) b = dotRow a b / c := by
  unfold dotRow
  induction a generalizing b with
  | nil => simp
  | cons x t ih =>
    cases b with
    | nil => simp
    | cons y s =>
      simp only [List.map_cons, List.zipWith_cons_cons, List.sum_cons, ih]
      ring

/-! ## Shape facts about `kvTiles` -/

theorem kvTiles_mem {k v : Mat} {kcs : Nat} {kv : Mat × Mat} (hmem : kv ∈ kvTiles k v kcs) :
    ∃ x, kv.1 = dynamicSlice2 k x 0 (min kcs k.length) ((k.head?.getD []).length) ∧
      kv.2 = dynamicSlice2 v x 0 (min kcs k.length) ((v.head?.getD []).length) := by
  unfold kvTiles at hmem
  simp only [List.mem_map] at hmem
  obtain ⟨x, hx, rfl⟩ := hmem
  exact ⟨x, rfl, rfl⟩

theorem dynamicSlice2_head_length {v : Mat} {step w : Nat} (x : Nat) (hstep : 0 < step)
    (hlen : step ≤ v.length) (hv : uniformRows v w) :
    ((dynamicSlice2 v x 0 step w).head?.getD []).length = w := by
  rw [dynamicSlice2_eq hv x step]
  have hl : (dynamicSlice v x step).length = step := dynamicSlice_length x hlen
  cases hs : dynamicSlice v x step with
  | nil => rw [hs] at hl; simp at hl; omega
  | cons r t =>
    have hr : r ∈ v := by
      have hmem : r ∈ dynamicSlice v x step := by rw [hs]; simp
      unfold dynamicSlice at hmem
      exact List.mem_of_mem_drop (List.mem_of_mem_take hmem)
    simp [hv r hr]

/-- Under consistent shapes, every value tile has the full value width
as the width of its first row. -/
theorem kvTiles_vwidth {k v : Mat} {kcs : Nat} (hkc : 0 < kcs) (hk0 : 0 < k.length)
    (hkv : v.length = k.length) (hv : uniformRows v ((v.head?.getD []).length))
    {kv : Mat × Mat} (hmem : kv ∈ kvTiles k v kcs) :
    ((kv.2.head?.getD []).length) = (v.head?.getD []).length := by
  obtain ⟨x, _, h2⟩ := kvTiles_mem hmem
  rw [h2]
  exact dynamicSlice2_head_length x (by omega) (by omega) hv

/-! ## Characterization of `summarize_chunk` (Pipeline A inner tile) -/

theorem mulMT_getD (q k : Mat) {i : Nat} (h : i < q.length) :
    (mulMT q k).getD i [] = tileScores (q.getD i []) k := by
  unfold mulMT tileScores
  rw [getD_map_of_lt _ _ h [] []]

theorem maxsRow_getD (q k : Mat) {i : Nat} (h : i < q.length) :
    ((mulMT q k).map listMax).getD i 0 = tileMaxA (q.getD i []) k := by
  rw [getD_map_of_lt listMax _ (by simpa [mulMT] using h) 0 [], mulMT_getD q k h]
  rfl

theorem summarize_chunk_values_length (q k v : Mat) :
    (summarize_chunk q k v).1.length = q.length := by
  simp [summarize_chunk, matMul, mulMT, List.length_zipWith]

theorem summarize_chunk_weights_length (q k v : Mat) :
    (summarize_chunk q k v).2.1.length = q.length := by
  simp [summarize_chunk, mulMT, List.length_zipWith]

theorem summarize_chunk_maxs_length (q k v : Mat) :
    (summarize_chunk q k v).2.2.length = q.length := by
  simp [summarize_chunk, mulMT]

theorem summarize_chunk_maxs_getD (q k v : Mat) {i : Nat} (h : i < q.length) :
    (summarize_chunk q k v).2.2.getD i 0 = tileMaxA (q.getD i []) k := by
  simp only [summarize_chunk]
  exact maxsRow_getD q k h

theorem summarize_chunk_weights_getD (q k v : Mat) {i : Nat} (h : i < q.length) :
    (summarize_chunk q k v).2.1.getD i 0 = tileWeightA (q.getD i []) k := by
  simp only [summarize_chunk]
  have hz : i < (List.zipWith (fun row m => row.map fun x => Real.exp (x - m))
      (mulMT q k) ((mulMT q k).map listMax)).length := by
    simp [List.length_zipWith, mulMT]
    omega
  rw [getD_map_of_lt List.sum _ hz 0 [],
    getD_zipWith _ (by simpa [mulMT] using h) (by simpa [mulMT] using h) [] [] 0,
    mulMT_getD q k h, maxsRow_getD q k h]
  rfl

theorem summarize_chunk_values_getD (q k v : Mat) {i : Nat} (h : i < q.length) :
    (summarize_chunk q k v).1.getD i [] =
      (List.range ((v.head?.getD []).length)).map fun j =>
        tileValueA (q.getD i []) k v j := by
  simp only [summarize_chunk, matMul]
  have hz : i < (List.zipWith (fun row m => row.map fun x => Real.exp (x - m))
      (mulMT q k) ((mulMT q k).map listMax)).length := by
    simp [List.length_zipWith, mulMT]
    omega
  rw [getD_map_of_lt _ _ hz [] [],
    getD_zipWith _ (by simpa [mulMT] using h) (by simpa [mulMT] using h) [] [] 0,
    mulMT_getD q k h, maxsRow_getD q k h]
  apply List.map_congr_left
  intro j hj
  unfold tileScores tileValueA
  rw [List.map_map, List.zipWith_map_left]
  rfl

/-! ## Characterization of the Pipeline A accumulation -/

theorem attnChunkResults_eq (q k v : Mat) (kcs : Nat) :
    attnChunkResults q k v kcs =
      (kvTiles k v kcs).map fun kv =>
        summarize_chunk (q.map fun r => r.map fun x =>
          x / Real.sqrt ((k.head?.getD []).length)) kv.1 kv.2 := rfl

theorem scaledRow_getD (q : Mat) (c : ℝ) {i : Nat} (h : i < q.length) :
    (q.map fun r => r.map fun x => x / c).getD i [] =
      (q.getD i []).map fun x => x / c := by
  rw [getD_map_of_lt _ _ h [] []]

theorem attnGlobalMax_length (q k v : Mat) (kcs : Nat) :
    (attnGlobalMax q k v kcs).length = q.length := by
  simp [attnGlobalMax]

theorem attnGlobalMax_getD (q k v : Mat) (kcs : Nat) {i : Nat} (h : i < q.length) :
    (attnGlobalMax q k v kcs).getD i 0 =
      globalMaxA ((q.getD i []).map fun x => x / Real.sqrt ((k.head?.getD []).length))
        k v kcs := by
  unfold attnGlobalMax globalMaxA
  rw [getD_range_map _ h 0, attnChunkResults_eq, List.map_map]
  congr 1
  apply List.map_congr_left
  intro kv hkv
  simp only [Function.comp]
  rw [summarize_chunk_maxs_getD _ _ _ (by simpa using h), scaledRow_getD q _ h]

theorem partsA_weights_getD (q k v : Mat) (kcs : Nat) {i : Nat} (h : i < q.length) :
    (_query_chunk_attention_parts q k v kcs).2.getD i 0 =
      rowDenA ((q.getD i []).map fun x => x / Real.sqrt ((k.head?.getD []).length))
        k v kcs := by
  simp only [_query_chunk_attention_parts]
  rw [getD_range_map _ h 0]
  unfold rowDenA
  rw [zipWith_map_same (List.zipWith fun x y => x * y) (fun r => r.2.1)
    (fun r => List.zipWith (fun x g => Real.exp (x - g)) r.2.2 (attnGlobalMax q k v kcs))
    (attnChunkResults q k v kcs), List.map_map, attnChunkResults_eq, List.map_map]
  apply sum_congr_map
  intro kv hkv
  simp only [Function.comp]
  have hq : i < (q.map fun r => r.map fun x =>
      x / Real.sqrt ((k.head?.getD []).length)).length := by simpa using h
  have hw : i < (summarize_chunk (q.map fun r => r.map fun x =>
      x / Real.sqrt ((k.head?.getD []).length)) kv.1 kv.2).2.1.length := by
    rw [summarize_chunk_weights_length]
    exact hq
  have hm2 : i < (summarize_chunk (q.map fun r => r.map fun x =>
      x / Real.sqrt ((k.head?.getD []).length)) kv.1 kv.2).2.2.length := by
    rw [summarize_chunk_maxs_length]
    exact hq
  have hg : i < (attnGlobalMax q k v kcs).length := by
    rw [attnGlobalMax_length]
    exact h
  rw [getD_zipWith _ hw (by simp [List.length_zipWith]; omega) 0 0 0,
    getD_zipWith _ hm2 hg 0 0 0,
    summarize_chunk_weights_getD _ _ _ hq, summarize_chunk_maxs_getD _ _ _ hq,
    scaledRow_getD q _ h, attnGlobalMax_getD q k v kcs h]

theorem partsA_values_getD (q k v : Mat) (kcs : Nat) (hkc : 0 < kcs) (hk0 : 0 < k.length)
    (hkv : v.length = k.length) (hv : uniformRows v ((v.head?.getD []).length))
    {i : Nat} (h : i < q.length) :
    (_query_chunk_attention_parts q k v kcs).1.getD i [] =
      (List.range ((v.head?.getD []).length)).map fun j =>
        rowNumA ((q.getD i []).map fun x => x / Real.sqrt ((k.head?.getD []).length))
          k v kcs j := by
  simp only [_query_chunk_attention_parts]
  rw [getD_range_map _ h []]
  apply List.map_congr_left
  intro j hj
  have hjv : j < (v.head?.getD []).length := List.mem_range.mp hj
  unfold rowNumA
  rw [zipWith_map_same (fun m d => List.zipWith (fun row di => row.map fun x => x * di) m d)
    (fun r => r.1)
    (fun r => List.zipWith (fun x g => Real.exp (x - g)) r.2.2 (attnGlobalMax q k v kcs))
    (attnChunkResults q k v kcs), List.map_map, attnChunkResults_eq, List.map_map]
  apply sum_congr_map
  intro kv hkv2
  simp only [Function.comp]
  have hq : i < (q.map fun r => r.map fun x =>
      x / Real.sqrt ((k.head?.getD []).length)).length := by simpa using h
  have hv1 : i < (summarize_chunk (q.map fun r => r.map fun x =>
      x / Real.sqrt ((k.head?.getD []).length)) kv.1 kv.2).1.length := by
    rw [summarize_chunk_values_length]
    exact hq
  have hm2 : i < (summarize_chunk (q.map fun r => r.map fun x =>
      x / Real.sqrt ((k.head?.getD []).length)) kv.1 kv.2).2.2.length := by
    rw [summarize_chunk_maxs_length]
    exact hq
  have hg : i < (attnGlobalMax q k v kcs).length := by
    rw [attnGlobalMax_length]
    exact h
  unfold entry
  rw [getD_zipWith _ hv1 (by simp [List.length_zipWith]; omega) [] [] 0,
    getD_zipWith _ hm2 hg 0 0 0,
    summarize_chunk_values_getD _ _ _ hq, summarize_chunk_maxs_getD _ _ _ hq,
    scaledRow_getD q _ h, attnGlobalMax_getD q k v kcs h,
    kvTiles_vwidth hkc hk0 hkv hv hkv2, List.map_map, getD_range_map _ hjv 0]
  rfl

theorem queryChunkA_length (q k v : Mat) (kcs : Nat) :
    (_query_chunk_attention q k v kcs).length = q.length := by
  simp [_query_chunk_attention, _query_chunk_attention_parts, List.length_zipWith]

theorem queryChunkA_getD (q k v : Mat) (kcs : Nat) (hkc : 0 < kcs) (hk0 : 0 < k.length)
    (hkv : v.length = k.length) (hv : uniformRows v ((v.head?.getD []).length))
    {i : Nat} (h : i < q.length) :
    (_query_chunk_attention q k v kcs).getD i [] =
      (List.range ((v.head?.getD []).length)).map fun j =>
        rowNumA ((q.getD i []).map fun x => x / Real.sqrt ((k.head?.getD []).length))
          k v kcs j /
        rowDenA ((q.getD i []).map fun x => x / Real.sqrt ((k.head?.getD []).length))
          k v kcs := by
  unfold _query_chunk_attention
  have h1 : i < (_query_chunk_attention_parts q k v kcs).1.length := by
    simp [_query_chunk_attention_parts]
    omega
  have h2 : i < (_query_chunk_attention_parts q k v kcs).2.length := by
    simp [_query_chunk_attention_parts]
    omega
  rw [getD_zipWith _ h1 h2 [] [] 0, partsA_values_getD q k v kcs hkc hk0 hkv hv h,
    partsA_weights_getD q k v kcs h, List.map_map]
  rfl

theorem queryChunkA_uniformRows (q k v : Mat) (kcs : Nat) (hkc : 0 < kcs) (hk0 : 0 < k.length)
    (hkv : v.length = k.length) (hv : uniformRows v ((v.head?.getD []).length)) :
    uniformRows (_query_chunk_attention q k v kcs) ((v.head?.getD []).length) := by
  intro r hr
  obtain ⟨i, hi, hri⟩ := List.mem_iff_getElem.mp hr
  have hlen : i < q.length := by
    rw [queryChunkA_length] at hi
    exact hi
  have hrow : (_query_chunk_attention q k v kcs).getD i [] = r := by
    rw [List.getD_eq_getElem _ _ hi, hri]
  rw [← hrow, queryChunkA_getD q k v kcs hkc hk0 hkv hv hlen]
  simp

/-! ## Characterization of the Pipeline B inner reducer -/

theorem cosAttnRow_getD (scale : ℝ) (q k : Mat) {i : Nat} (h : i < q.length) :
    ((mulMT q k).map fun r => r.map fun x => x * scale).getD i [] =
      (tileScores (q.getD i []) k).map fun s => s * scale := by
  rw [getD_map_of_lt _ _ (by simpa [mulMT] using h) [] [], mulMT_getD q k h]

theorem summarize_cos_values_length (scale : ℝ) (q k v : Mat) :
    (summarize_chunk_cosine scale q k v).1.length = q.length := by
  simp [summarize_chunk_cosine, matMul, mulMT]

theorem summarize_cos_weights_length (scale : ℝ) (q k v : Mat) :
    (summarize_chunk_cosine scale q k v).2.length = q.length := by
  simp [summarize_chunk_cosine, mulMT]

theorem summarize_cos_weights_getD (scale : ℝ) (q k v : Mat) {i : Nat} (h : i < q.length) :
    (summarize_chunk_cosine scale q k v).2.getD i 0 = tileWeightB scale (q.getD i []) k := by
  simp only [summarize_chunk_cosine]
  have ha : i < (((mulMT q k).map fun r => r.map fun x => x * scale).map fun r =>
      r.map Real.exp).length := by simp [mulMT]; omega
  have hb : i < (((mulMT q k).map fun r => r.map fun x => x * scale)).length := by
    simp [mulMT]; omega
  rw [getD_map_of_lt List.sum _ ha 0 [], getD_map_of_lt _ _ hb [] [],
    cosAttnRow_getD scale q k h]
  unfold tileWeightB tileScores
  rw [List.map_map, List.map_map]
  rfl

theorem summarize_cos_values_getD (scale : ℝ) (q k v : Mat) {i : Nat} (h : i < q.length) :
    (summarize_chunk_cosine scale q k v).1.getD i [] =
      (List.range ((v.head?.getD []).length)).map fun j =>
        tileValueB scale (q.getD i []) k v j := by
  simp only [summarize_chunk_cosine, matMul]
  have hb : i < (((mulMT q k).map fun r => r.map fun x => x * scale)).length := by
    simp [mulMT]; omega
  rw [getD_map_of_lt _ _ hb [] [], cosAttnRow_getD scale q k h]
  apply List.map_congr_left
  intro j hj
  unfold tileValueB tileScores
  rw [List.map_map, List.zipWith_map_left]
  rfl

theorem partsB_weights_getD (q k v : Mat) (kcs : Nat) (scale : ℝ) {i : Nat}
    (h : i < q.length) :
    (_query_chunk_cosine_sim_attention_parts q k v kcs scale).2.getD i 0 =
      rowDenB scale (q.getD i []) k v kcs := by
  simp only [_query_chunk_cosine_sim_attention_parts]
  rw [getD_range_map _ h 0]
  unfold rowDenB cosChunkResults
  rw [List.map_map]
  apply sum_congr_map
  intro kv hkv2
  simp only [Function.comp]
  exact summarize_cos_weights_getD scale q kv.1 kv.2 h

theorem partsB_values_getD (q k v : Mat) (kcs : Nat) (scale : ℝ) (hkc : 0 < kcs)
    (hk0 : 0 < k.length) (hkv : v.length = k.length)
    (hv : uniformRows v ((v.head?.getD []).length)) {i : Nat} (h : i < q.length) :
    (_query_chunk_cosine_sim_attention_parts q k v kcs scale).1.getD i [] =
      (List.range ((v.head?.getD []).length)).map fun j =>
        rowNumB scale (q.getD i []) k v kcs j := by
  simp only [_query_chunk_cosine_sim_attention_parts]
  rw [getD_range_map _ h []]
  apply List.map_congr_left
  intro j hj
  have hjv : j < (v.head?.getD []).length := List.mem_range.mp hj
  unfold rowNumB cosChunkResults
  rw [List.map_map]
  apply sum_congr_map
  intro kv hkv2
  simp only [Function.comp]
  unfold entry
  rw [summarize_cos_values_getD scale q kv.1 kv.2 h,
    kvTiles_vwidth hkc hk0 hkv hv hkv2, getD_range_map _ hjv 0]

theorem queryChunkB_length (q k v : Mat) (kcs : Nat) (scale : ℝ) :
    (_query_chunk_cosine_sim_attention q k v kcs scale).length = q.length := by
  simp [_query_chunk_cosine_sim_attention, _query_chunk_cosine_sim_attention_parts,
    List.length_zipWith]

theorem queryChunkB_getD (q k v : Mat) (kcs : Nat) (scale : ℝ) (hkc : 0 < kcs)
    (hk0 : 0 < k.length) (hkv : v.length = k.length)
    (hv : uniformRows v ((v.head?.getD []).length)) {i : Nat} (h : i < q.length) :
    (_query_chunk_cosine_sim_attention q k v kcs scale).getD i [] =
      (List.range ((v.head?.getD []).length)).map fun j =>
        rowNumB scale (q.getD i []) k v kcs j / rowDenB scale (q.getD i []) k v kcs := by
  unfold _query_chunk_cosine_sim_attention
  have h1 : i < (_query_chunk_cosine_sim_attention_parts q k v kcs scale).1.length := by
    simp [_query_chunk_cosine_sim_attention_parts]
    omega
  have h2 : i < (_query_chunk_cosine_sim_attention_parts q k v kcs scale).2.length := by
    simp [_query_chunk_cosine_sim_attention_parts]
    omega
  rw [getD_zipWith _ h1 h2 [] [] 0, partsB_values_getD q k v kcs scale hkc hk0 hkv hv h,
    partsB_weights_getD q k v kcs scale h, List.map_map]
  rfl

theorem queryChunkB_uniformRows (q k v : Mat) (kcs : Nat) (scale : ℝ) (hkc : 0 < kcs)
    (hk0 : 0 < k.length) (hkv : v.length = k.length)
    (hv : uniformRows v ((v.head?.getD []).length)) :
    uniformRows (_query_chunk_cosine_sim_attention q k v kcs scale)
      ((v.head?.getD []).length) := by
  intro r hr
  obtain ⟨i, hi, hri⟩ := List.mem_iff_getElem.mp hr
  have hlen : i < q.length := by
    rw [queryChunkB_length] at hi
    exact hi
  have hrow : (_query_chunk_cosine_sim_attention q k v kcs scale).getD i [] = r := by
    rw [List.getD_eq_getElem _ _ hi, hri]
  rw [← hrow, queryChunkB_getD q k v kcs scale hkc hk0 hkv hv hlen]
  simp

/-! ## Collapse of the tile sums in the exactly-divisible case -/

theorem slice_map_comm (g : List ℝ → ℝ) (k : Mat) (x step : Nat) :
    (dynamicSlice k x step).map g = dynamicSlice (k.map g) x step := by
  unfold dynamicSlice
  rw [List.map_take, List.map_drop, List.length_map]

theorem slice_zipWith_comm (f : List ℝ → List ℝ → ℝ) {k v : Mat} (x step : Nat)
    (h : v.length = k.length) :
    List.zipWith f (dynamicSlice k x step) (dynamicSlice v x step) =
      dynamicSlice (List.zipWith f k v) x step := by
  unfold dynamicSlice
  rw [List.length_zipWith, h, min_self, ← List.take_zipWith, ← List.drop_zipWith]

theorem chunkStarts_le {len step x : Nat} (h : 0 < step) (hdvd : step ∣ len)
    (hx : x ∈ chunkStarts len step) : x + step ≤ len := by
  unfold chunkStarts at hx
  simp only [List.mem_map, List.mem_range] at hx
  obtain ⟨t, ht, rfl⟩ := hx
  obtain ⟨m, rfl⟩ := hdvd
  rw [ceilDiv_mul _ h] at ht
  have hmul := Nat.mul_le_mul_right step (show t + 1 ≤ m by omega)
  rw [Nat.add_mul, Nat.one_mul] at hmul
  calc t * step + step ≤ m * step := hmul
  _ = step * m := Nat.mul_comm ..

theorem chunkStarts_ne_nil {len step : Nat} (hlen : 0 < len) (hstep : 0 < step) :
    chunkStarts len step ≠ [] := by
  unfold chunkStarts
  have hpos : 0 < ceilDiv len step := ceilDiv_pos hlen hstep
  intro hcon
  have := congrArg List.length hcon
  simp at this
  omega

theorem kvTiles_eq_slices {k v : Mat} (kcs : Nat)
    (hk : uniformRows k ((k.head?.getD []).length))
    (hv : uniformRows v ((v.head?.getD []).length)) :
    kvTiles k v kcs = (chunkStarts k.length (min kcs k.length)).map fun x =>
      (dynamicSlice k x (min kcs k.length), dynamicSlice v x (min kcs k.length)) := by
  unfold kvTiles
  apply List.map_congr_left
  intro x hx
  rw [dynamicSlice2_eq hk x _, dynamicSlice2_eq hv x _]

theorem sum_over_tiles {k v : Mat} {kcs : Nat} (f : List ℝ → List ℝ → ℝ)
    (hk : uniformRows k ((k.head?.getD []).length))
    (hv : uniformRows v ((v.head?.getD []).length))
    (hkv : v.length = k.length) (hkc : 0 < kcs) (hk0 : 0 < k.length)
    (hdvd : min kcs k.length ∣ k.length) :
    ((kvTiles k v kcs).map fun kv => (List.zipWith f kv.1 kv.2).sum).sum =
      (List.zipWith f k v).sum := by
  have hstep : 0 < min kcs k.length := by omega
  rw [kvTiles_eq_slices kcs hk hv, List.map_map]
  have hpt : ∀ x ∈ chunkStarts k.length (min kcs k.length),
      ((fun kv => (List.zipWith f kv.1 kv.2).sum) ∘ fun x =>
        (dynamicSlice k x (min kcs k.length), dynamicSlice v x (min kcs k.length))) x =
      (dynamicSlice (List.zipWith f k v) x (min kcs k.length)).sum := by
    intro x hx
    simp only [Function.comp]
    rw [slice_zipWith_comm f x _ hkv]
  rw [List.map_congr_left hpt]
  have hw : (List.zipWith f k v).length = k.length := by
    rw [List.length_zipWith, hkv, min_self]
  have := @chunks_flatten _ (List.zipWith f k v) _ hstep (by rw [hw]; exact hdvd)
  rw [hw] at this
  calc ((chunkStarts k.length (min kcs k.length)).map fun x =>
      (dynamicSlice (List.zipWith f k v) x (min kcs k.length)).sum).sum
      = (((chunkStarts k.length (min kcs k.length)).map fun x =>
          dynamicSlice (List.zipWith f k v) x (min kcs k.length)).map List.sum).sum := by
        rw [List.map_map]
        rfl
  _ = ((chunkStarts k.length (min kcs k.length)).map fun x =>
        dynamicSlice (List.zipWith f k v) x (min kcs k.length)).flatten.sum := by
        rw [List.sum_flatten]
  _ = (List.zipWith f k v).sum := by rw [this]

theorem sum_over_tiles_k {k v : Mat} {kcs : Nat} (g : List ℝ → ℝ)
    (hk : uniformRows k ((k.head?.getD []).length))
    (hv : uniformRows v ((v.head?.getD []).length))
    (hkc : 0 < kcs) (hk0 : 0 < k.length)
    (hdvd : min kcs k.length ∣ k.length) :
    ((kvTiles k v kcs).map fun kv => (kv.1.map g).sum).sum = (k.map g).sum := by
  have hstep : 0 < min kcs k.length := by omega
  rw [kvTiles_eq_slices kcs hk hv, List.map_map]
  have hpt : ∀ x ∈ chunkStarts k.length (min kcs k.length),
      ((fun kv => ((kv.1 : Mat).map g).sum) ∘ fun x =>
        (dynamicSlice k x (min kcs k.length), dynamicSlice v x (min kcs k.length))) x =
      (dynamicSlice (k.map g) x (min kcs k.length)).sum := by
    intro x hx
    simp only [Function.comp]
    rw [slice_map_comm g k x _]
  rw [List.map_congr_left hpt]
  have hw : (k.map g).length = k.length := List.length_map ..
  have := @chunks_flatten _ (k.map g) _ hstep (by rw [hw]; exact hdvd)
  rw [hw] at this
  calc ((chunkStarts k.length (min kcs k.length)).map fun x =>
      (dynamicSlice (k.map g) x (min kcs k.length)).sum).sum
      = (((chunkStarts k.length (min kcs k.length)).map fun x =>
          dynamicSlice (k.map g) x (min kcs k.length)).map List.sum).sum := by
        rw [List.map_map]
        rfl
  _ = ((chunkStarts k.length (min kcs k.length)).map fun x =>
        dynamicSlice (k.map g) x (min kcs k.length)).flatten.sum := by
        rw [List.sum_flatten]
  _ = (k.map g).sum := by rw [this]

theorem max_over_tiles {k v : Mat} {kcs : Nat} (g : List ℝ → ℝ)
    (hk : uniformRows k ((k.head?.getD []).length))
    (hv : uniformRows v ((v.head?.getD []).length))
    (hkc : 0 < kcs) (hk0 : 0 < k.length)
    (hdvd : min kcs k.length ∣ k.length) :
    listMax ((kvTiles k v kcs).map fun kv => listMax (kv.1.map g)) = listMax (k.map g) := by
  have hstep : 0 < min kcs k.length := by omega
  rw [kvTiles_eq_slices kcs hk hv, List.map_map]
  have hpt : ∀ x ∈ chunkStarts k.length (min kcs k.length),
      ((fun kv => listMax ((kv.1 : Mat).map g)) ∘ fun x =>
        (dynamicSlice k x (min kcs k.length), dynamicSlice v x (min kcs k.length))) x =
      listMax (dynamicSlice (k.map g) x (min kcs k.length)) := by
    intro x hx
    simp only [Function.comp]
    rw [slice_map_comm g k x _]
  rw [List.map_congr_left hpt]
  have hw : (k.map g).length = k.length := List.length_map ..
  have hjoin := @chunks_flatten _ (k.map g) _ hstep (by rw [hw]; exact hdvd)
  rw [hw] at hjoin
  have hne : ∀ l ∈ (chunkStarts k.length (min kcs k.length)).map fun x =>
      dynamicSlice (k.map g) x (min kcs k.length), l ≠ [] := by
    intro l hl
    simp only [List.mem_map] at hl
    obtain ⟨x, hx, rfl⟩ := hl
    have hlen : (dynamicSlice (k.map g) x (min kcs k.length)).length = min kcs k.length :=
      dynamicSlice_length x (by rw [hw]; omega)
    intro hcon
    rw [hcon] at hlen
    simp at hlen
    omega
  have h0 : (chunkStarts k.length (min kcs k.length)).map (fun x =>
      dynamicSlice (k.map g) x (min kcs k.length)) ≠ [] := by
    intro hcon
    exact chunkStarts_ne_nil hk0 hstep (by simpa using congrArg List.length hcon)
  calc listMax ((chunkStarts k.length (min kcs k.length)).map fun x =>
      listMax (dynamicSlice (k.map g) x (min kcs k.length)))
      = listMax (((chunkStarts k.length (min kcs k.length)).map fun x =>
          dynamicSlice (k.map g) x (min kcs k.length)).map listMax) := by
        rw [List.map_map]
        rfl
  _ = listMax (((chunkStarts k.length (min kcs k.length)).map fun x =>
        dynamicSlice (k.map g) x (min kcs k.length)).flatten) := (listMax_flatten h0 hne).symm
  _ = listMax (k.map g) := by rw [hjoin]

theorem zipWith_sum_mul (g : List ℝ → List ℝ → ℝ) (c : ℝ) :
    ∀ (l1 l2 : List (List ℝ)),
      (List.zipWith (fun a b => g a b * c) l1 l2).sum = (List.zipWith g l1 l2).sum * c := by
  intro l1
  induction l1 with
  | nil => intro l2; simp
  | cons x t ih =>
    intro l2
    cases l2 with
    | nil => simp
    | cons y s =>
      simp only [List.zipWith_cons_cons, List.sum_cons, ih s]
      ring

theorem zipWith_congr_fun {f g : α → β → γ} (h : ∀ x y, f x y = g x y)
    (l1 : List α) (l2 : List β) :
    List.zipWith f l1 l2 = List.zipWith g l1 l2 := by
  have hfg : f = g := funext fun x => funext fun y => h x y
  rw [hfg]

theorem mulDivMulCancel {N D c : ℝ} (hc : c ≠ 0) : N * c / (D * c) = N / D := by
  rcases eq_or_ne D 0 with hD | hD
  · simp [hD]
  · field_simp
    ring

/-! ## The Pipeline A row formulas in the exactly-divisible case -/

theorem globalMaxA_collapse (a : List ℝ) {k v : Mat} {kcs : Nat}
    (hk : uniformRows k ((k.head?.getD []).length))
    (hv : uniformRows v ((v.head?.getD []).length))
    (hkc : 0 < kcs) (hk0 : 0 < k.length) (hdvd : min kcs k.length ∣ k.length) :
    globalMaxA a k v kcs = listMax (k.map fun kr => dotRow a kr) := by
  unfold globalMaxA tileMaxA tileScores
  exact max_over_tiles (fun kr => dotRow a kr) hk hv hkc hk0 hdvd

theorem rowNumA_collapse (a : List ℝ) {k v : Mat} {kcs : Nat} (j : Nat)
    (hk : uniformRows k ((k.head?.getD []).length))
    (hv : uniformRows v ((v.head?.getD []).length))
    (hkv : v.length = k.length) (hkc : 0 < kcs) (hk0 : 0 < k.length)
    (hdvd : min kcs k.length ∣ k.length) :
    rowNumA a k v kcs j =
      (List.zipWith (fun kr vr => Real.exp (dotRow a kr) * vr.getD j 0) k v).sum *
        Real.exp (-(globalMaxA a k v kcs)) := by
  unfold rowNumA
  have hpt : ∀ kv ∈ kvTiles k v kcs,
      tileValueA a kv.1 kv.2 j * Real.exp (tileMaxA a kv.1 - globalMaxA a k v kcs) =
      (List.zipWith (fun kr vr =>
        Real.exp (dotRow a kr) * vr.getD j 0 * Real.exp (-(globalMaxA a k v kcs)))
        kv.1 kv.2).sum := by
    intro kv hkv2
    unfold tileValueA
    rw [zipWith_sum_mul (fun kr vr =>
      Real.exp (dotRow a kr - tileMaxA a kv.1) * vr.getD j 0)
      (Real.exp (tileMaxA a kv.1 - globalMaxA a k v kcs)) kv.1 kv.2 |>.symm]
    refine congrArg List.sum (zipWith_congr_fun ?_ kv.1 kv.2)
    intro kr vr
    have h1 : Real.exp (dotRow a kr - tileMaxA a kv.1) *
        Real.exp (tileMaxA a kv.1 - globalMaxA a k v kcs) =
        Real.exp (dotRow a kr) * Real.exp (-(globalMaxA a k v kcs)) := by
      rw [← Real.exp_add, ← Real.exp_add]
      congr 1
      ring
    linear_combination (vr.getD j 0) * h1
  rw [List.map_congr_left hpt, sum_over_tiles _ hk hv hkv hkc hk0 hdvd]
  exact zipWith_sum_mul (fun kr vr => Real.exp (dotRow a kr) * vr.getD j 0)
    (Real.exp (-(globalMaxA a k v kcs))) k v

theorem rowDenA_collapse (a : List ℝ) {k v : Mat} {kcs : Nat}
    (hk : uniformRows k ((k.head?.getD []).length))
    (hv : uniformRows v ((v.head?.getD []).length))
    (hkc : 0 < kcs) (hk0 : 0 < k.length) (hdvd : min kcs k.length ∣ k.length) :
    rowDenA a k v kcs =
      (k.map fun kr => Real.exp (dotRow a kr)).sum * Real.exp (-(globalMaxA a k v kcs)) := by
  unfold rowDenA
  have hpt : ∀ kv ∈ kvTiles k v kcs,
      tileWeightA a kv.1 * Real.exp (tileMaxA a kv.1 - globalMaxA a k v kcs) =
      ((kv.1 : Mat).map fun kr =>
        Real.exp (dotRow a kr) * Real.exp (-(globalMaxA a k v kcs))).sum := by
    intro kv hkv2
    unfold tileWeightA tileScores
    rw [List.map_map, sum_mul_right, List.map_map]
    apply sum_congr_map
    intro kr hkr
    simp only [Function.comp]
    rw [← Real.exp_add, ← Real.exp_add]
    congr 1
    ring
  rw [List.map_congr_left hpt, sum_over_tiles_k _ hk hv hkc hk0 hdvd, sum_mul_right,
    List.map_map]
  rfl

/-- In the exactly-divisible case the Pipeline A inner reducer computes
exactly the direct softmax attention of its query tile against the full
`k`, `v`. -/
theorem queryChunkA_eq_naive (q k v : Mat) (kcs : Nat) (hkc : 0 < kcs) (hk0 : 0 < k.length)
    (hkv : v.length = k.length) (hk : uniformRows k ((k.head?.getD []).length))
    (hv : uniformRows v ((v.head?.getD []).length)) (hdvd : min kcs k.length ∣ k.length) :
    _query_chunk_attention q k v kcs = naiveAttention q k v := by
  apply List.ext_getElem
  · rw [queryChunkA_length]
    simp [naiveAttention]
  intro i h1 h2
  have hiq : i < q.length := by rw [queryChunkA_length] at h1; exact h1
  rw [← List.getD_eq_getElem _ [] h1, ← List.getD_eq_getElem _ [] h2,
    queryChunkA_getD q k v kcs hkc hk0 hkv hv hiq]
  unfold naiveAttention
  rw [getD_map_of_lt _ _ hiq [] []]
  simp only [naiveRow]
  apply List.map_congr_left
  intro j hj
  rw [rowNumA_collapse _ j hk hv hkv hkc hk0 hdvd, rowDenA_collapse _ hk hv hkc hk0 hdvd,
    mulDivMulCancel (Real.exp_ne_zero _), List.zipWith_map_left]
  congr 1
  · refine congrArg List.sum (zipWith_congr_fun ?_ k v)
    intro kr vr
    rw [dotRow_map_div]
  · apply sum_congr_map
    intro kr hkr
    rw [dotRow_map_div]

/-! ## The Pipeline B inner reducer in the exactly-divisible case -/

theorem rowNumB_collapse (scale : ℝ) (a : List ℝ) {k v : Mat} {kcs : Nat} (j : Nat)
    (hk : uniformRows k ((k.head?.getD []).length))
    (hv : uniformRows v ((v.head?.getD []).length))
    (hkv : v.length = k.length) (hkc : 0 < kcs) (hk0 : 0 < k.length)
    (hdvd : min kcs k.length ∣ k.length) :
    rowNumB scale a k v kcs j =
      (List.zipWith (fun kr vr => dotRow a kr * scale * vr.getD j 0) k v).sum := by
  unfold rowNumB tileValueB
  exact sum_over_tiles _ hk hv hkv hkc hk0 hdvd

theorem rowDenB_collapse (scale : ℝ) (a : List ℝ) {k v : Mat} {kcs : Nat}
    (hk : uniformRows k ((k.head?.getD []).length))
    (hv : uniformRows v ((v.head?.getD []).length))
    (hkc : 0 < kcs) (hk0 : 0 < k.length) (hdvd : min kcs k.length ∣ k.length) :
    rowDenB scale a k v kcs = (k.map fun kr => Real.exp (dotRow a kr * scale)).sum := by
  unfold rowDenB tileWeightB
  exact sum_over_tiles_k _ hk hv hkc hk0 hdvd

/-- In the exactly-divisible case the Pipeline B inner reducer computes
the unchunked Pipeline B formula (pre-exponential value fold, exponential
weight fold). -/
theorem queryChunkB_eq_ref (q k v : Mat) (kcs : Nat) (scale : ℝ) (hkc : 0 < kcs)
    (hk0 : 0 < k.length) (hkv : v.length = k.length)
    (hk : uniformRows k ((k.head?.getD []).length))
    (hv : uniformRows v ((v.head?.getD []).length))
    (hdvd : min kcs k.length ∣ k.length) :
    _query_chunk_cosine_sim_attention q k v kcs scale = cosineRef scale q k v := by
  apply List.ext_getElem
  · rw [queryChunkB_length]
    simp [cosineRef]
  intro i h1 h2
  have hiq : i < q.length := by rw [queryChunkB_length] at h1; exact h1
  rw [← List.getD_eq_getElem _ [] h1, ← List.getD_eq_getElem _ [] h2,
    queryChunkB_getD q k v kcs scale hkc hk0 hkv hv hiq]
  unfold cosineRef
  rw [getD_map_of_lt _ _ hiq [] []]
  simp only [cosineRefRow]
  apply List.map_congr_left
  intro j hj
  rw [rowNumB_collapse scale _ j hk hv hkv hkc hk0 hdvd,
    rowDenB_collapse scale _ hk hv hkc hk0 hdvd]

/-! ## The outer query-chunk driver -/

theorem outer_tiles_flatten {α : Type _} (q : List α) (qcs : Nat) (hqc : 0 < qcs)
    (hq0 : 0 < q.length) (hdvd : min qcs q.length ∣ q.length) :
    ((List.range (ceilDiv q.length qcs)).map fun t =>
      dynamicSlice q (t * qcs) (min qcs q.length)).flatten = q := by
  rcases le_or_lt qcs q.length with hle | hlt
  · have hmin : min qcs q.length = qcs := min_eq_left hle
    rw [hmin] at hdvd ⊢
    have hch := @chunks_flatten _ q _ hqc hdvd
    unfold chunkStarts at hch
    rw [List.map_map] at hch
    simpa only [Function.comp_def] using hch
  · have hmin : min qcs q.length = q.length := min_eq_right (le_of_lt hlt)
    rw [hmin, ceilDiv_one_of_le hq0 (le_of_lt hlt)]
    simp [dynamicSlice]

theorem naiveRow_length (k v : Mat) (qr : List ℝ) :
    (naiveRow k v qr).length = (v.head?.getD []).length := by
  simp [naiveRow]

theorem naiveAttention_length (q k v : Mat) : (naiveAttention q k v).length = q.length := by
  simp [naiveAttention]

theorem naiveAttention_uniformRows (q k v : Mat) :
    uniformRows (naiveAttention q k v) ((v.head?.getD []).length) := by
  intro r hr
  simp only [naiveAttention, List.mem_map] at hr
  obtain ⟨qr, hqr, rfl⟩ := hr
  exact naiveRow_length k v qr

theorem cosineRefRow_length (scale : ℝ) (k v : Mat) (qr : List ℝ) :
    (cosineRefRow scale k v qr).length = (v.head?.getD []).length := by
  simp [cosineRefRow]

theorem cosineRef_length (scale : ℝ) (q k v : Mat) : (cosineRef scale q k v).length = q.length := by
  simp [cosineRef]

theorem cosineRef_uniformRows (scale : ℝ) (q k v : Mat) :
    uniformRows (cosineRef scale q k v) ((v.head?.getD []).length) := by
  intro r hr
  simp only [cosineRef, List.mem_map] at hr
  obtain ⟨qr, hqr, rfl⟩ := hr
  exact cosineRefRow_length scale k v qr

theorem reshapeStack_eq {res : List Mat} {m : Mat} {r c : Nat}
    (hflat : res.flatten = m) (hm : uniformRows m c) (hr : m.length = r) :
    reshapeStack res r c = some m := by
  unfold reshapeStack
  rw [hflat]
  have hlen : m.flatten.length = r * c := by rw [flatten_length_uniform hm, hr]
  rw [if_pos hlen, ← hr]
  exact congrArg some (reshape_rows m hm)

theorem l2norm_length (t : Mat) (eps : ℝ) : (l2norm t eps).length = t.length := by
  simp [l2norm]

theorem l2norm_row_lengths {t : Mat} {c : Nat} (h : uniformRows t c) (eps : ℝ) :
    uniformRows (l2norm t eps) c := by
  intro r hr
  simp only [l2norm, List.mem_map] at hr
  obtain ⟨r0, hr0, rfl⟩ := hr
  simp [h r0 hr0]

theorem l2norm_head_length (t : Mat) (eps : ℝ) :
    ((l2norm t eps).head?.getD []).length = (t.head?.getD []).length := by
  cases t with
  | nil => rfl
  | cons r s => simp [l2norm]

/-! ## Master equivalences for the two entry points -/

/-- Pipeline A, exactly-divisible chunking: the chunked entry point
computes the direct (unchunked) softmax attention. -/
theorem rabe_attention_eq_naive (q k v : Mat) (qcs kcs : Nat) (hqc : 0 < qcs) (hkc : 0 < kcs)
    (hq0 : 0 < q.length) (hk0 : 0 < k.length) (hkv : v.length = k.length)
    (hqu : uniformRows q ((q.head?.getD []).length))
    (hk : uniformRows k ((k.head?.getD []).length))
    (hv : uniformRows v ((v.head?.getD []).length))
    (hqd : min qcs q.length ∣ q.length) (hkd : min kcs k.length ∣ k.length) :
    rabe_attention q k v qcs kcs = some (naiveAttention q k v) := by
  simp only [rabe_attention]
  have hpt : ∀ t ∈ List.range (ceilDiv q.length qcs),
      _query_chunk_attention (dynamicSlice2 q (t * qcs) 0 (min qcs q.length)
        ((q.head?.getD []).length)) k v kcs =
      (dynamicSlice q (t * qcs) (min qcs q.length)).map (naiveRow k v) := by
    intro t ht
    rw [dynamicSlice2_eq hqu _ _,
      queryChunkA_eq_naive _ k v kcs hkc hk0 hkv hk hv hkd]
    rfl
  rw [List.map_congr_left hpt]
  apply reshapeStack_eq
  · have hfuse : ((List.range (ceilDiv q.length qcs)).map fun t =>
        (dynamicSlice q (t * qcs) (min qcs q.length)).map (naiveRow k v)) =
        ((List.range (ceilDiv q.length qcs)).map fun t =>
          dynamicSlice q (t * qcs) (min qcs q.length)).map (List.map (naiveRow k v)) := by
      rw [List.map_map]
      rfl
    rw [hfuse, ← List.map_flatten, outer_tiles_flatten q qcs hqc hq0 hqd]
    rfl
  · exact naiveAttention_uniformRows q k v
  · exact naiveAttention_length q k v

/-- Pipeline B, exactly-divisible chunking: the chunked entry point
computes the unchunked Pipeline B formula on the `l2norm`-preprocessed
inputs (with `l2norm`'s own built-in `eps = 1e-6`; the caller-supplied
`eps` plays no role). -/
theorem rabe_cos_eq_ref (q k v : Mat) (qcs kcs : Nat) (scale eps : ℝ)
    (hqc : 0 < qcs) (hkc : 0 < kcs) (hq0 : 0 < q.length) (hk0 : 0 < k.length)
    (hkv : v.length = k.length)
    (hqu : uniformRows q ((q.head?.getD []).length))
    (hk : uniformRows k ((k.head?.getD []).length))
    (hv : uniformRows v ((v.head?.getD []).length))
    (hqd : min qcs q.length ∣ q.length) (hkd : min kcs k.length ∣ k.length) :
    rabe_cosine_sim_attention q k v qcs kcs scale eps =
      some (cosineRef scale (l2norm q) (l2norm k) v) := by
  simp only [rabe_cosine_sim_attention]
  have hknl : (l2norm k).length = k.length := l2norm_length k _
  have hknu : uniformRows (l2norm k) (((l2norm k).head?.getD []).length) := by
    rw [l2norm_head_length]
    exact l2norm_row_lengths hk _
  have hqnu : uniformRows (l2norm q) ((q.head?.getD []).length) :=
    l2norm_row_lengths hqu _
  have hpt : ∀ t ∈ List.range (ceilDiv q.length qcs),
      _query_chunk_cosine_sim_attention (dynamicSlice2 (l2norm q) (t * qcs) 0
        (min qcs q.length) ((q.head?.getD []).length)) (l2norm k) v kcs scale =
      (dynamicSlice (l2norm q) (t * qcs) (min qcs q.length)).map
        (cosineRefRow scale (l2norm k) v) := by
    intro t ht
    rw [dynamicSlice2_eq hqnu _ _,
      queryChunkB_eq_ref _ (l2norm k) v kcs scale hkc (by rw [hknl]; exact hk0)
        (by rw [hknl]; exact hkv) hknu hv (by rw [hknl]; exact hkd)]
    rfl
  rw [List.map_congr_left hpt]
  apply reshapeStack_eq
  · have hfuse : ((List.range (ceilDiv q.length qcs)).map fun t =>
        (dynamicSlice (l2norm q) (t * qcs) (min qcs q.length)).map
          (cosineRefRow scale (l2norm k) v)) =
        ((List.range (ceilDiv q.length qcs)).map fun t =>
          dynamicSlice (l2norm q) (t * qcs) (min qcs q.length)).map
            (List.map (cosineRefRow scale (l2norm k) v)) := by
      rw [List.map_map]
      rfl
    have hql : (l2norm q).length = q.length := l2norm_length q _
    rw [hfuse, ← List.map_flatten]
    have hout := outer_tiles_flatten (l2norm q) qcs hqc (by rw [hql]; exact hq0)
      (by rw [hql]; exact hqd)
    rw [hql] at hout
    rw [hout]
    rfl
  · exact cosineRef_uniformRows scale (l2norm q) (l2norm k) v
  · rw [cosineRef_length, l2norm_length]

/-! ## Row extraction through slices and reshapes -/

theorem dynamicSlice_getD {α : Type _} {xs : List α} {x s r : Nat} (h : s ≤ xs.length)
    (hr : r < s) (d : α) :
    (dynamicSlice xs x s).getD r d = xs.getD (min x (xs.length - s) + r) d := by
  unfold dynamicSlice
  have h1 : r < ((xs.drop (min x (xs.length - s))).take s).length := by
    rw [List.length_take, List.length_drop]
    omega
  have hidx : min x (xs.length - s) + r < xs.length := by omega
  rw [List.getD_eq_getElem _ _ h1, List.getD_eq_getElem _ _ hidx, List.getElem_take,
    List.getElem_drop]

theorem flatten_row_extract {α : Type _} {m : List (List α)} {c : Nat}
    (hm : ∀ r ∈ m, r.length = c) {i : Nat} (hi : i < m.length) :
    (m.flatten.drop (i * c)).take c = m.getD i [] := by
  have h := reshape_rows m hm
  have h2 := congrArg (fun l => l.getD i ([] : List α)) h
  simp only at h2
  rw [getD_range_map _ hi []] at h2
  exact h2

theorem xexp_ne {A B : ℝ} (h0 : 0 < A) (hlt : A < B) (hbound : B < A * (B - A + 1)) :
    A / Real.exp A ≠ B / Real.exp B := by
  intro hcon
  have heA := Real.exp_pos A
  have heB := Real.exp_pos B
  have hcross : A * Real.exp B = B * Real.exp A := by
    rw [div_eq_div_iff (ne_of_gt heA) (ne_of_gt heB)] at hcon
    linarith [hcon]
  have hA0 : A ≠ 0 := ne_of_gt h0
  have hratio : Real.exp (B - A) = B / A := by
    rw [Real.exp_sub, div_eq_div_iff (ne_of_gt heA) hA0]
    linarith [hcross]
  have hle : B - A + 1 ≤ Real.exp (B - A) := by
    have h := Real.add_one_le_exp (B - A)
    linarith
  rw [hratio] at hle
  have hmul : A * (B - A + 1) ≤ B := by
    have h := (le_div_iff₀ h0).mp hle
    linarith
  linarith

/-! ## Positivity of the accumulated weight denominators -/

theorem kvTiles_length_pos {k v : Mat} {kcs : Nat} (hkc : 0 < kcs) (hk0 : 0 < k.length) :
    0 < (kvTiles k v kcs).length := by
  unfold kvTiles chunkStarts
  simp only [List.length_map, List.length_range]
  exact ceilDiv_pos hk0 (by omega)

theorem kvTiles_fst_length {k v : Mat} {kcs : Nat} (hk0 : 0 < k.length)
    {kv : Mat × Mat} (hmem : kv ∈ kvTiles k v kcs) :
    kv.1.length = min kcs k.length := by
  obtain ⟨x, h1, _⟩ := kvTiles_mem hmem
  rw [h1]
  unfold dynamicSlice2
  rw [List.length_map]
  exact dynamicSlice_length x (by omega)

theorem tileWeightA_pos (a : List ℝ) {kt : Mat} (hne : kt ≠ []) :
    0 < tileWeightA a kt := by
  unfold tileWeightA
  apply listSumPos
  · intro hcon
    apply hne
    have hl := congrArg List.length hcon
    simp only [List.length_map, List.length_nil] at hl
    unfold tileScores at hl
    simp only [List.length_map] at hl
    exact List.length_eq_zero.mp hl
  · intro y hy
    simp only [List.mem_map] at hy
    obtain ⟨s, hs, rfl⟩ := hy
    exact Real.exp_pos _

theorem tileWeightB_pos (scale : ℝ) (a : List ℝ) {kt : Mat} (hne : kt ≠ []) :
    0 < tileWeightB scale a kt := by
  unfold tileWeightB
  apply listSumPos
  · intro hcon
    apply hne
    have hl := congrArg List.length hcon
    simp only [List.length_map, List.length_nil] at hl
    exact List.length_eq_zero.mp hl
  · intro y hy
    simp only [List.mem_map] at hy
    obtain ⟨s, hs, rfl⟩ := hy
    exact Real.exp_pos _

theorem rowDenA_pos (a : List ℝ) {k v : Mat} {kcs : Nat} (hkc : 0 < kcs)
    (hk0 : 0 < k.length) : 0 < rowDenA a k v kcs := by
  unfold rowDenA
  apply listSumPos
  · intro hcon
    have hl := congrArg List.length hcon
    simp only [List.length_map, List.length_nil] at hl
    have := @kvTiles_length_pos k v kcs hkc hk0
    omega
  · intro y hy
    simp only [List.mem_map] at hy
    obtain ⟨kv, hkv2, rfl⟩ := hy
    have hne : kv.1 ≠ [] := by
      intro hcon
      have := kvTiles_fst_length hk0 hkv2
      rw [hcon] at this
      simp at this
      omega
    exact mul_pos (tileWeightA_pos a hne) (Real.exp_pos _)

theorem rowDenB_pos (scale : ℝ) (a : List ℝ) {k v : Mat} {kcs : Nat} (hkc : 0 < kcs)
    (hk0 : 0 < k.length) : 0 < rowDenB scale a k v kcs := by
  unfold rowDenB
  apply listSumPos
  · intro hcon
    have hl := congrArg List.length hcon
    simp only [List.length_map, List.length_nil] at hl
    have := @kvTiles_length_pos k v kcs hkc hk0
    omega
  · intro y hy
    simp only [List.mem_map] at hy
    obtain ⟨kv, hkv2, rfl⟩ := hy
    have hne : kv.1 ≠ [] := by
      intro hcon
      have := kvTiles_fst_length hk0 hkv2
      rw [hcon] at this
      simp at this
      omega
    exact tileWeightB_pos scale a hne

/-! ## Row dependence of the outer driver (Pipeline A) -/

theorem reshapeStack_row_congr {res1 res2 : List Mat} {r c eff : Nat} {i : Nat}
    (h1l : res1.length = res2.length)
    (hu1 : ∀ m ∈ res1, m.length = eff) (hu2 : ∀ m ∈ res2, m.length = eff)
    (hr1 : ∀ m ∈ res1, uniformRows m c) (hr2 : ∀ m ∈ res2, uniformRows m c)
    (hi : i < r)
    (hrow : res1.length * eff = r → (res1.getD (i / eff) []).getD (i % eff) [] =
      (res2.getD (i / eff) []).getD (i % eff) []) :
    Option.map (fun m => m.getD i ([] : List ℝ)) (reshapeStack res1 r c) =
      Option.map (fun m => m.getD i []) (reshapeStack res2 r c) := by
  have hfl1 : res1.flatten.length = res1.length * eff := flatten_length_uniform hu1
  have hfl2 : res2.flatten.length = res2.length * eff := flatten_length_uniform hu2
  have hfr1 : ∀ row ∈ res1.flatten, row.length = c := by
    intro row hrw
    obtain ⟨m, hm, hrm⟩ := List.mem_flatten.mp hrw
    exact hr1 m hm row hrm
  have hfr2 : ∀ row ∈ res2.flatten, row.length = c := by
    intro row hrw
    obtain ⟨m, hm, hrm⟩ := List.mem_flatten.mp hrw
    exact hr2 m hm row hrm
  have hffl1 : res1.flatten.flatten.length = res1.length * eff * c := by
    rw [flatten_length_uniform hfr1, hfl1]
  have hffl2 : res2.flatten.flatten.length = res1.length * eff * c := by
    rw [flatten_length_uniform hfr2, hfl2, h1l]
  simp only [reshapeStack]
  by_cases hcond : res1.length * eff * c = r * c
  · rw [if_pos (by rw [hffl1]; exact hcond), if_pos (by rw [hffl2]; exact hcond)]
    simp only [Option.map_some']
    congr 1
    rw [getD_range_map _ hi [], getD_range_map _ hi []]
    rcases Nat.eq_zero_or_pos c with hc0 | hc0
    · simp [hc0]
    · have hre : res1.length * eff = r := Nat.eq_of_mul_eq_mul_right hc0 hcond
      have hi1 : i < res1.flatten.length := by rw [hfl1, hre]; exact hi
      have hi2 : i < res2.flatten.length := by rw [hfl2, ← h1l, hre]; exact hi
      rw [flatten_row_extract hfr1 hi1, flatten_row_extract hfr2 hi2,
        getD_flatten_uniform hu1 (by rw [hre]; exact hi) ([] : List ℝ),
        getD_flatten_uniform hu2 (by rw [← h1l, hre]; exact hi) ([] : List ℝ)]
      exact hrow hre
  · rw [if_neg (by rw [hffl1]; exact hcond), if_neg (by rw [hffl2]; exact hcond)]

theorem ceilDiv_mul_cover (a b : Nat) (hb : 0 < b) : a ≤ ceilDiv a b * b := by
  have hdm := Nat.div_add_mod (a + b - 1) b
  have hml := Nat.mod_lt (a + b - 1) hb
  unfold ceilDiv
  have hgoal : b * ((a + b - 1) / b) = ((a + b - 1) / b) * b := Nat.mul_comm ..
  omega

/-- Pipeline A row dependence: for any chunk sizes, row `i` of the
output of `rabe_attention` depends only on row `i` of `q` (and on `k`,
`v` and the parameters); perturbing other query rows cannot change it. -/
theorem rabe_attention_row_dep (q q2 k v : Mat) (qcs kcs : Nat) {i : Nat}
    (hqc : 0 < qcs) (hkc : 0 < kcs) (hk0 : 0 < k.length) (hkv : v.length = k.length)
    (hv : uniformRows v ((v.head?.getD []).length))
    (hlen : q2.length = q.length)
    (hd : (q2.head?.getD []).length = (q.head?.getD []).length)
    (hrow : q2.getD i [] = q.getD i []) (hi : i < q.length) :
    Option.map (fun m => m.getD i []) (rabe_attention q k v qcs kcs) =
      Option.map (fun m => m.getD i []) (rabe_attention q2 k v qcs kcs) := by
  have hq0 : 0 < q.length := by omega
  have heff : 0 < min qcs q.length := by omega
  have hcover : q.length ≤ ceilDiv q.length qcs * min qcs q.length := by
    rcases le_or_lt qcs q.length with hle | hlt
    · rw [min_eq_left hle]
      exact ceilDiv_mul_cover q.length qcs hqc
    · rw [min_eq_right (le_of_lt hlt), ceilDiv_one_of_le hq0 (le_of_lt hlt), Nat.one_mul]
  have hcomm : ceilDiv q.length qcs * min qcs q.length =
      min qcs q.length * ceilDiv q.length qcs := Nat.mul_comm ..
  have htdiv : i / min qcs q.length < ceilDiv q.length qcs :=
    Nat.div_lt_of_lt_mul (by omega)
  have hmod : i % min qcs q.length < min qcs q.length := Nat.mod_lt i heff
  simp only [rabe_attention, hlen, hd]
  apply @reshapeStack_row_congr _ _ _ _ (min qcs q.length) i
  · simp
  · intro m hm
    simp only [List.mem_map, List.mem_range] at hm
    obtain ⟨t, ht, rfl⟩ := hm
    rw [queryChunkA_length]
    unfold dynamicSlice2
    rw [List.length_map]
    exact dynamicSlice_length _ (by omega)
  · intro m hm
    simp only [List.mem_map, List.mem_range] at hm
    obtain ⟨t, ht, rfl⟩ := hm
    rw [queryChunkA_length]
    unfold dynamicSlice2
    rw [List.length_map]
    exact dynamicSlice_length _ (by rw [hlen]; omega)
  · intro m hm
    simp only [List.mem_map, List.mem_range] at hm
    obtain ⟨t, ht, rfl⟩ := hm
    exact queryChunkA_uniformRows _ k v kcs hkc hk0 hkv hv
  · intro m hm
    simp only [List.mem_map, List.mem_range] at hm
    obtain ⟨t, ht, rfl⟩ := hm
    exact queryChunkA_uniformRows _ k v kcs hkc hk0 hkv hv
  · exact hi
  · intro hre
    simp only [List.length_map, List.length_range] at hre
    rw [getD_range_map _ htdiv [], getD_range_map _ htdiv []]
    have htile1 : (dynamicSlice2 q (i / min qcs q.length * qcs) 0 (min qcs q.length)
        ((q.head?.getD []).length)).length = min qcs q.length := by
      unfold dynamicSlice2
      rw [List.length_map]
      exact dynamicSlice_length _ (by omega)
    have htile2 : (dynamicSlice2 q2 (i / min qcs q.length * qcs) 0 (min qcs q.length)
        ((q.head?.getD []).length)).length = min qcs q.length := by
      unfold dynamicSlice2
      rw [List.length_map]
      exact dynamicSlice_length _ (by rw [hlen]; omega)
    rw [queryChunkA_getD _ k v kcs hkc hk0 hkv hv (by rw [htile1]; exact hmod),
      queryChunkA_getD _ k v kcs hkc hk0 hkv hv (by rw [htile2]; exact hmod)]
    have hidx : min (i / min qcs q.length * qcs) (q.length - min qcs q.length) +
        i % min qcs q.length = i := by
      rcases le_or_lt qcs q.length with hle | hlt
      · have he : min qcs q.length = qcs := min_eq_left hle
        rw [he] at hre ⊢
        have hdm := Nat.div_add_mod i qcs
        have hx1 : i / qcs * qcs = qcs * (i / qcs) := Nat.mul_comm ..
        have ht2 : i / qcs < ceilDiv q.length qcs := by
          rw [he] at htdiv
          exact htdiv
        have h1 : i / qcs * qcs + qcs ≤ q.length := by
          have h2 := Nat.mul_le_mul_right qcs
            (show i / qcs + 1 ≤ ceilDiv q.length qcs by omega)
          rw [Nat.add_mul, Nat.one_mul] at h2
          omega
        have hm2 : i % qcs < qcs := Nat.mod_lt i (by omega)
        omega
      · have he : min qcs q.length = q.length := min_eq_right (le_of_lt hlt)
        rw [he, Nat.div_eq_of_lt hi, Nat.mod_eq_of_lt hi]
        simp
    have hrows : (dynamicSlice2 q (i / min qcs q.length * qcs) 0 (min qcs q.length)
        ((q.head?.getD []).length)).getD (i % min qcs q.length) [] =
        (dynamicSlice2 q2 (i / min qcs q.length * qcs) 0 (min qcs q.length)
          ((q.head?.getD []).length)).getD (i % min qcs q.length) [] := by
      unfold dynamicSlice2
      rw [getD_map_of_lt _ _
          (by rw [dynamicSlice_length _ (by omega : min qcs q.length ≤ q.length)]
              exact hmod) [] [],
        getD_map_of_lt _ _
          (by rw [dynamicSlice_length _
                (by rw [hlen]; omega : min qcs q.length ≤ q2.length)]
              exact hmod) [] [],
        dynamicSlice_getD (by omega) hmod ([] : List ℝ),
        dynamicSlice_getD (by rw [hlen]; omega) hmod ([] : List ℝ), hlen, hidx, hrow]
    rw [hrows]

/-! ## Extra value rows are silently ignored (no shape validation) -/

theorem take_head_eq {v : Mat} {n : Nat} (hn : 0 < n) : (v.take n).head? = v.head? := by
  cases v with
  | nil => simp
  | cons r t =>
    cases n with
    | zero => omega
    | succ m => simp

/-- With `v` at least as long as `k` and exactly-divisible key tiling,
the key/value tiles never address rows of `v` beyond `k.length`, so
truncating `v` to `k.length` rows gives the same tiles. -/
theorem kvTiles_truncate {k v : Mat} {kcs : Nat} (hkc : 0 < kcs) (hk0 : 0 < k.length)
    (hvlen : k.length ≤ v.length) (hdvd : min kcs k.length ∣ k.length) :
    kvTiles k (v.take k.length) kcs = kvTiles k v kcs := by
  unfold kvTiles
  rw [take_head_eq hk0]
  apply List.map_congr_left
  intro x hx
  have hstep : 0 < min kcs k.length := by omega
  have hxs := chunkStarts_le hstep hdvd hx
  congr 1
  unfold dynamicSlice2
  congr 1
  unfold dynamicSlice
  rw [List.length_take, min_eq_left hvlen]
  have hm1 : min x (k.length - min kcs k.length) = x := by omega
  have hm2 : min x (v.length - min kcs k.length) = x := by omega
  rw [hm1, hm2, List.drop_take, List.take_take]
  congr 1
  omega

theorem attnChunkResults_truncate (q : Mat) {k v : Mat} {kcs : Nat} (hkc : 0 < kcs)
    (hk0 : 0 < k.length) (hvlen : k.length ≤ v.length)
    (hdvd : min kcs k.length ∣ k.length) :
    attnChunkResults q k (v.take k.length) kcs = attnChunkResults q k v kcs := by
  unfold attnChunkResults
  rw [kvTiles_truncate hkc hk0 hvlen hdvd]

theorem attnGlobalMax_truncate (q : Mat) {k v : Mat} {kcs : Nat} (hkc : 0 < kcs)
    (hk0 : 0 < k.length) (hvlen : k.length ≤ v.length)
    (hdvd : min kcs k.length ∣ k.length) :
    attnGlobalMax q k (v.take k.length) kcs = attnGlobalMax q k v kcs := by
  unfold attnGlobalMax
  rw [attnChunkResults_truncate q hkc hk0 hvlen hdvd]

theorem cosChunkResults_truncate (scale : ℝ) (q : Mat) {k v : Mat} {kcs : Nat}
    (hkc : 0 < kcs) (hk0 : 0 < k.length) (hvlen : k.length ≤ v.length)
    (hdvd : min kcs k.length ∣ k.length) :
    cosChunkResults scale q k (v.take k.length) kcs = cosChunkResults scale q k v kcs := by
  unfold cosChunkResults
  rw [kvTiles_truncate hkc hk0 hvlen hdvd]

theorem queryChunkA_truncate_v (q k v : Mat) (kcs : Nat) (hkc : 0 < kcs)
    (hk0 : 0 < k.length) (hvlen : k.length ≤ v.length)
    (hdvd : min kcs k.length ∣ k.length) :
    _query_chunk_attention q k (v.take k.length) kcs = _query_chunk_attention q k v kcs := by
  unfold _query_chunk_attention _query_chunk_attention_parts
  rw [attnChunkResults_truncate q hkc hk0 hvlen hdvd,
    attnGlobalMax_truncate q hkc hk0 hvlen hdvd, take_head_eq hk0]

theorem queryChunkB_truncate_v (q k v : Mat) (kcs : Nat) (scale : ℝ) (hkc : 0 < kcs)
    (hk0 : 0 < k.length) (hvlen : k.length ≤ v.length)
    (hdvd : min kcs k.length ∣ k.length) :
    _query_chunk_cosine_sim_attention q k (v.take k.length) kcs scale =
      _query_chunk_cosine_sim_attention q k v kcs scale := by
  unfold _query_chunk_cosine_sim_attention _query_chunk_cosine_sim_attention_parts
  rw [cosChunkResults_truncate scale q hkc hk0 hvlen hdvd, take_head_eq hk0]

theorem rabe_attention_truncate_v (q k v : Mat) (qcs kcs : Nat) (hkc : 0 < kcs)
    (hk0 : 0 < k.length) (hvlen : k.length ≤ v.length)
    (hdvd : min kcs k.length ∣ k.length) :
    rabe_attention q k (v.take k.length) qcs kcs = rabe_attention q k v qcs kcs := by
  simp only [rabe_attention]
  rw [take_head_eq hk0]
  have hpt : ∀ t ∈ List.range (ceilDiv q.length qcs),
      _query_chunk_attention (dynamicSlice2 q (t * qcs) 0 (min qcs q.length)
        ((q.head?.getD []).length)) k (v.take k.length) kcs =
      _query_chunk_attention (dynamicSlice2 q (t * qcs) 0 (min qcs q.length)
        ((q.head?.getD []).length)) k v kcs := by
    intro t ht
    exact queryChunkA_truncate_v _ k v kcs hkc hk0 hvlen hdvd
  rw [List.map_congr_left hpt]

theorem rabe_cos_truncate_v (q k v : Mat) (qcs kcs : Nat) (scale eps : ℝ) (hkc : 0 < kcs)
    (hk0 : 0 < k.length) (hvlen : k.length ≤ v.length)
    (hdvd : min kcs k.length ∣ k.length) :
    rabe_cosine_sim_attention q k (v.take k.length) qcs kcs scale eps =
      rabe_cosine_sim_attention q k v qcs kcs scale eps := by
  simp only [rabe_cosine_sim_attention]
  rw [take_head_eq hk0]
  have hknl : (l2norm k).length = k.length := l2norm_length k _
  have hpt : ∀ t ∈ List.range (ceilDiv q.length qcs),
      _query_chunk_cosine_sim_attention (dynamicSlice2 (l2norm q) (t * qcs) 0
        (min qcs q.length) ((q.head?.getD []).length)) (l2norm k) (v.take k.length)
        kcs scale =
      _query_chunk_cosine_sim_attention (dynamicSlice2 (l2norm q) (t * qcs) 0
        (min qcs q.length) ((q.head?.getD []).length)) (l2norm k) v kcs scale := by
    intro t ht
    have h := queryChunkB_truncate_v (dynamicSlice2 (l2norm q) (t * qcs) 0
        (min qcs q.length) ((q.head?.getD []).length)) (l2norm k) v kcs scale hkc
      (by rw [hknl]; exact hk0) (by rw [hknl]; exact hvlen) (by rw [hknl]; exact hdvd)
    rw [hknl] at h
    exact h
  rw [List.map_congr_left hpt]

/-! ## Claims -/

/-- C1 (counterexample): the chunked entry points do not always equal
the direct softmax attention.  Pipeline A with `key_length = 3` and
`key_chunk_size = 2` double-counts the clamped boundary rows (output
`1/2` instead of `1/3`); Pipeline B differs from softmax attention on
the row-normalized inputs even with a single exact tile, because its
value sum uses the pre-exponential scores and its `l2norm` normalizes
by the whole-matrix norm. -/
theorem claim_C1_counterexample :
    rabe_attention [[0]] [[1],[1],[1]] [[0],[1],[0]] 1 2 ≠
      some (naiveAttention [[0]] [[1],[1],[1]] [[0],[1],[0]]) ∧
    rabe_cosine_sim_attention [[0]] [[1],[1]] [[1],[1]] 1 2 16 (1e-5) ≠
      some (naiveCosineSimAttention [[0]] [[1],[1]] [[1],[1]] 16 (1e-5)) := by
  constructor
  · simp [rabe_attention, _query_chunk_attention, _query_chunk_attention_parts,
      attnChunkResults, attnGlobalMax, kvTiles, chunkStarts, ceilDiv, dynamicSlice2,
      dynamicSlice, summarize_chunk, mulMT, matMul, dotRow, listMax, entry, reshapeStack,
      naiveAttention, naiveRow, Real.exp_zero, List.range_succ, List.range_zero,
      List.map_append, List.sum_append, List.zipWith_cons_cons, List.getD]
    norm_num
  · simp [rabe_cosine_sim_attention, _query_chunk_cosine_sim_attention,
      _query_chunk_cosine_sim_attention_parts, cosChunkResults, summarize_chunk_cosine,
      kvTiles, chunkStarts, ceilDiv, dynamicSlice2, dynamicSlice, mulMT, matMul, dotRow,
      entry, reshapeStack, l2norm, frobNorm, naiveCosineSimAttention, rowwiseL2norm,
      Real.exp_zero, Real.sqrt_zero, List.range_succ, List.range_zero,
      List.map_append, List.sum_append, List.zipWith_cons_cons, List.getD]

/-- C1 (amended): for Pipeline A, whenever the effective chunk sizes
exactly divide the sequence lengths (`min q_chunk_size q_len ∣ q_len`
and `min k_chunk_size k_len ∣ k_len`, which in particular covers chunk
sizes equal to or larger than the lengths), the chunked `rabe_attention`
equals the direct unchunked softmax attention
`softmax(Q Kᵀ / sqrt(head_dim)) V` over exact real arithmetic.  The
Pipeline B part of the original claim is false (see the
counterexample). -/
theorem claim_C1 (q k v : Mat) (qcs kcs : Nat) (hqc : 0 < qcs) (hkc : 0 < kcs)
    (hq0 : 0 < q.length) (hk0 : 0 < k.length) (hkv : v.length = k.length)
    (hqu : uniformRows q ((q.head?.getD []).length))
    (hk : uniformRows k ((k.head?.getD []).length))
    (hv : uniformRows v ((v.head?.getD []).length))
    (hqd : min qcs q.length ∣ q.length) (hkd : min kcs k.length ∣ k.length) :
    rabe_attention q k v qcs kcs = some (naiveAttention q k v) :=
  rabe_attention_eq_naive q k v qcs kcs hqc hkc hq0 hk0 hkv hqu hk hv hqd hkd

theorem claim_C1_witness :
    0 < 1 ∧ (0:Nat) < ([[(0:ℝ)]] : Mat).length ∧ (0:Nat) < ([[(1:ℝ)]] : Mat).length ∧
    ([[(1:ℝ)]] : Mat).length = ([[(1:ℝ)]] : Mat).length ∧
    uniformRows ([[(0:ℝ)]] : Mat) ((([[(0:ℝ)]] : Mat).head?.getD []).length) ∧
    uniformRows ([[(1:ℝ)]] : Mat) ((([[(1:ℝ)]] : Mat).head?.getD []).length) ∧
    min 1 ([[(0:ℝ)]] : Mat).length ∣ ([[(0:ℝ)]] : Mat).length ∧
    rabe_attention [[(0:ℝ)]] [[(1:ℝ)]] [[(1:ℝ)]] 1 1 =
      some (naiveAttention [[(0:ℝ)]] [[(1:ℝ)]] [[(1:ℝ)]]) :=
  ⟨by decide, by simp, by simp, rfl, by simp [uniformRows], by simp [uniformRows],
    by simp,
    claim_C1 [[(0:ℝ)]] [[(1:ℝ)]] [[(1:ℝ)]] 1 1 (by decide) (by decide) (by simp)
      (by simp) rfl (by simp [uniformRows]) (by simp [uniformRows])
      (by simp [uniformRows]) (by simp) (by simp)⟩

/-- C2: refuted on the code (code bug).  The source's `l2norm` divides
by the Frobenius norm of the whole matrix plus its built-in `1e-6`, not
by each row's own norm: on `[[3],[4]]` every entry is divided by
`5 + 1e-6`, whereas row-wise normalization (the spec, and what cosine
similarity requires) divides row 0 by `3 + eps` and row 1 by
`4 + eps`. -/
theorem claim_C2 :
    l2norm [[3],[4]] (1e-6) = [[3 / (5 + 1e-6)],[4 / (5 + 1e-6)]] ∧
    rowwiseL2norm [[3],[4]] (1e-6) = [[3 / (3 + 1e-6)],[4 / (4 + 1e-6)]] ∧
    l2norm [[3],[4]] (1e-6) ≠ rowwiseL2norm [[3],[4]] (1e-6) := by
  have h25 : Real.sqrt (3^2 + 4^2 : ℝ) = 5 := by
    rw [show (3^2 + 4^2 : ℝ) = 5^2 by norm_num, Real.sqrt_sq (by norm_num)]
  have h3 : Real.sqrt ((3:ℝ)^2) = 3 := Real.sqrt_sq (by norm_num)
  have h4 : Real.sqrt ((4:ℝ)^2) = 4 := Real.sqrt_sq (by norm_num)
  refine ⟨?_, ?_, ?_⟩
  · simp [l2norm, frobNorm, h25]
  · simp [rowwiseL2norm, h3, h4]
  · intro hcon
    have h0 := congrArg (fun m => ((m.getD 0 []).getD 0 (0:ℝ))) hcon
    simp [l2norm, rowwiseL2norm, frobNorm, h25, h3] at h0
    norm_num at h0

/-- C3 (counterexample): with `query_length = 3` not a multiple of
`query_chunk_size = 2`, both entry points fail at the final reshape
(the over-allocated tile buffer holds `2·2 = 4` rows, and a reshape to
`(3, v_dim)` is a size mismatch, not a truncation) instead of returning
a `(query_length, value_dim)` output. -/
theorem claim_C3_counterexample :
    rabe_attention [[0],[0],[0]] [[0]] [[1]] 2 1 = none ∧
    rabe_cosine_sim_attention [[0],[0],[0]] [[0]] [[1]] 2 1 16 (1e-5) = none :=
  ⟨rfl, rfl⟩

/-- C3 (amended): when the effective chunk sizes exactly divide the
sequence lengths, both entry points return `some` output of shape
exactly `(query_length, value_dim)` (with the values of the respective
unchunked computations); when `query_length` is not a multiple of the
effective query chunk, the final reshape fails (see the
counterexample) — the reshape cannot discard spillover. -/
theorem claim_C3 (q k v : Mat) (qcs kcs : Nat) (scale eps : ℝ) (hqc : 0 < qcs)
    (hkc : 0 < kcs) (hq0 : 0 < q.length) (hk0 : 0 < k.length) (hkv : v.length = k.length)
    (hqu : uniformRows q ((q.head?.getD []).length))
    (hk : uniformRows k ((k.head?.getD []).length))
    (hv : uniformRows v ((v.head?.getD []).length))
    (hqd : min qcs q.length ∣ q.length) (hkd : min kcs k.length ∣ k.length) :
    (∃ out, rabe_attention q k v qcs kcs = some out ∧ out.length = q.length ∧
      uniformRows out ((v.head?.getD []).length)) ∧
    (∃ out, rabe_cosine_sim_attention q k v qcs kcs scale eps = some out ∧
      out.length = q.length ∧ uniformRows out ((v.head?.getD []).length)) := by
  constructor
  · exact ⟨naiveAttention q k v,
      rabe_attention_eq_naive q k v qcs kcs hqc hkc hq0 hk0 hkv hqu hk hv hqd hkd,
      naiveAttention_length q k v, naiveAttention_uniformRows q k v⟩
  · exact ⟨cosineRef scale (l2norm q) (l2norm k) v,
      rabe_cos_eq_ref q k v qcs kcs scale eps hqc hkc hq0 hk0 hkv hqu hk hv hqd hkd,
      by rw [cosineRef_length, l2norm_length],
      cosineRef_uniformRows scale (l2norm q) (l2norm k) v⟩

theorem claim_C3_witness :
    (0:Nat) < 2 ∧ (0:Nat) < ([[(0:ℝ)],[0]] : Mat).length ∧
    min 2 ([[(0:ℝ)],[0]] : Mat).length ∣ ([[(0:ℝ)],[0]] : Mat).length ∧
    ((∃ out, rabe_attention [[(0:ℝ)],[0]] [[(1:ℝ)]] [[(2:ℝ)]] 2 3 = some out ∧
        out.length = ([[(0:ℝ)],[0]] : Mat).length ∧
        uniformRows out ((([[(2:ℝ)]] : Mat).head?.getD []).length)) ∧
      (∃ out, rabe_cosine_sim_attention [[(0:ℝ)],[0]] [[(1:ℝ)]] [[(2:ℝ)]] 2 3 16 (1e-5) =
          some out ∧ out.length = ([[(0:ℝ)],[0]] : Mat).length ∧
        uniformRows out ((([[(2:ℝ)]] : Mat).head?.getD []).length))) :=
  ⟨by decide, by simp, by simp,
    claim_C3 [[(0:ℝ)],[0]] [[(1:ℝ)]] [[(2:ℝ)]] 2 3 16 (1e-5) (by decide) (by decide)
      (by simp) (by simp) rfl (by simp [uniformRows]) (by simp [uniformRows])
      (by simp [uniformRows]) (by simp) (by simp)⟩

/-- C4 (counterexample): with `key_length = 3` and tile size 2 the
clamped tiles are rows `{0,1}` and `{1,2}`: row 1 of `K` (and of `V`)
is read twice, so the tiles do not read every row exactly once. -/
theorem claim_C4_counterexample :
    ((kvTiles [[(0:ℝ)],[1],[2]] [[(0:ℝ)],[1],[2]] 2).map Prod.fst).flatten =
      [[(0:ℝ)],[1],[1],[2]] ∧
    ((kvTiles [[(0:ℝ)],[1],[2]] [[(0:ℝ)],[1],[2]] 2).map Prod.fst).flatten ≠
      [[(0:ℝ)],[1],[2]] := by
  have h4 : ((kvTiles [[(0:ℝ)],[1],[2]] [[(0:ℝ)],[1],[2]] 2).map Prod.fst).flatten =
      [[(0:ℝ)],[1],[1],[2]] := rfl
  refine ⟨h4, ?_⟩
  rw [h4]
  intro hcon
  have hlen := congrArg List.length hcon
  simp at hlen

/-- C4 (amended): when the effective key tile size
`min k_chunk_size key_length` exactly divides `key_length`, the clamped
key/value tiles partition `K` and `V`: their concatenations are exactly
`K` and `V`, so every row is read exactly once and no slice reads out
of bounds.  When `key_length` is not a multiple of the tile size, the
boundary tile is clamped backwards and re-reads rows (see the
counterexample). -/
theorem claim_C4 (k v : Mat) (kcs : Nat) (hkc : 0 < kcs) (hk0 : 0 < k.length)
    (hkv : v.length = k.length)
    (hk : uniformRows k ((k.head?.getD []).length))
    (hv : uniformRows v ((v.head?.getD []).length))
    (hdvd : min kcs k.length ∣ k.length) :
    ((kvTiles k v kcs).map Prod.fst).flatten = k ∧
    ((kvTiles k v kcs).map Prod.snd).flatten = v := by
  have hstep : 0 < min kcs k.length := by omega
  rw [kvTiles_eq_slices kcs hk hv]
  constructor
  · rw [List.map_map]
    simp only [Function.comp_def]
    exact chunks_flatten hstep hdvd
  · rw [List.map_map]
    simp only [Function.comp_def]
    have hch := @chunks_flatten _ v (min kcs k.length) hstep
      (by rw [hkv]; exact hdvd)
    rw [hkv] at hch
    exact hch

theorem claim_C4_witness :
    (0:Nat) < 1 ∧ (0:Nat) < ([[(1:ℝ)],[2]] : Mat).length ∧
    ([[(3:ℝ)],[4]] : Mat).length = ([[(1:ℝ)],[2]] : Mat).length ∧
    min 1 ([[(1:ℝ)],[2]] : Mat).length ∣ ([[(1:ℝ)],[2]] : Mat).length ∧
    (((kvTiles [[(1:ℝ)],[2]] [[(3:ℝ)],[4]] 1).map Prod.fst).flatten = [[(1:ℝ)],[2]] ∧
      ((kvTiles [[(1:ℝ)],[2]] [[(3:ℝ)],[4]] 1).map Prod.snd).flatten = [[(3:ℝ)],[4]]) :=
  ⟨by decide, by simp, by simp, by simp,
    claim_C4 [[(1:ℝ)],[2]] [[(3:ℝ)],[4]] 1 (by decide) (by simp) rfl
      (by simp [uniformRows]) (by simp [uniformRows]) (by simp)⟩

/-- C5: confirmed.  In Pipeline B's per-tile `summarize_chunk`, entry
`(i, j)` of the local value sum is
`Σ_t (scale · (q_i · k_t)) · v_t[j]` — the *pre-exponential* scores —
while entry `i` of the local weight sum is
`Σ_t exp(scale · (q_i · k_t))` — the exponentiated scores. -/
theorem claim_C5 (scale : ℝ) (q k v : Mat) {i j : Nat} (hi : i < q.length)
    (hj : j < (v.head?.getD []).length) :
    entry (summarize_chunk_cosine scale q k v).1 i j =
      (List.zipWith (fun kr vr => scale * dotRow (q.getD i []) kr * vr.getD j 0) k v).sum ∧
    (summarize_chunk_cosine scale q k v).2.getD i 0 =
      (k.map fun kr => Real.exp (scale * dotRow (q.getD i []) kr)).sum := by
  constructor
  · unfold entry
    rw [summarize_cos_values_getD scale q k v hi, getD_range_map _ hj 0]
    unfold tileValueB
    refine congrArg List.sum (zipWith_congr_fun ?_ k v)
    intro kr vr
    ring
  · rw [summarize_cos_weights_getD scale q k v hi]
    unfold tileWeightB
    apply sum_congr_map
    intro kr hkr
    rw [mul_comm]

theorem claim_C5_witness :
    (0:Nat) < ([[(1:ℝ)]] : Mat).length ∧
    (0:Nat) < (([[(1:ℝ)]] : Mat).head?.getD []).length ∧
    (entry (summarize_chunk_cosine 2 [[(1:ℝ)]] [[(1:ℝ)]] [[(1:ℝ)]]).1 0 0 =
        (List.zipWith (fun kr vr => 2 * dotRow (([[(1:ℝ)]] : Mat).getD 0 []) kr *
          vr.getD 0 0) [[(1:ℝ)]] [[(1:ℝ)]]).sum ∧
      (summarize_chunk_cosine 2 [[(1:ℝ)]] [[(1:ℝ)]] [[(1:ℝ)]]).2.getD 0 0 =
        (([[(1:ℝ)]] : Mat).map fun kr =>
          Real.exp (2 * dotRow (([[(1:ℝ)]] : Mat).getD 0 []) kr)).sum) :=
  ⟨by simp, by simp, claim_C5 2 [[(1:ℝ)]] [[(1:ℝ)]] [[(1:ℝ)]] (by simp) (by simp)⟩

/-- C6 (counterexample): with `key_length = 3`, key chunk size 2 versus
3 changes the Pipeline A output (`1/2` versus `1/3` on this input):
chunk sizes that do not divide the sequence length change the result. -/
theorem claim_C6_counterexample :
    rabe_attention [[0]] [[1],[1],[1]] [[0],[1],[0]] 1 2 ≠
      rabe_attention [[0]] [[1],[1],[1]] [[0],[1],[0]] 1 3 := by
  simp [rabe_attention, _query_chunk_attention, _query_chunk_attention_parts,
    attnChunkResults, attnGlobalMax, kvTiles, chunkStarts, ceilDiv, dynamicSlice2,
    dynamicSlice, summarize_chunk, mulMT, matMul, dotRow, listMax, entry, reshapeStack,
    Real.exp_zero, List.range_succ, List.range_zero,
    List.map_append, List.sum_append, List.zipWith_cons_cons, List.getD]
  norm_num

/-- C6 (amended): for fixed inputs, any two chunk-size configurations
whose effective chunk sizes exactly divide the respective sequence
lengths produce identical outputs, for both entry points (all four
sums then regroup to the same unchunked computation).  Chunk sizes
whose effective tile does not divide the length can change the result
(see the counterexample). -/
theorem claim_C6 (q k v : Mat) (qcs1 kcs1 qcs2 kcs2 : Nat) (scale eps : ℝ)
    (hqc1 : 0 < qcs1) (hkc1 : 0 < kcs1) (hqc2 : 0 < qcs2) (hkc2 : 0 < kcs2)
    (hq0 : 0 < q.length) (hk0 : 0 < k.length) (hkv : v.length = k.length)
    (hqu : uniformRows q ((q.head?.getD []).length))
    (hk : uniformRows k ((k.head?.getD []).length))
    (hv : uniformRows v ((v.head?.getD []).length))
    (hqd1 : min qcs1 q.length ∣ q.length) (hkd1 : min kcs1 k.length ∣ k.length)
    (hqd2 : min qcs2 q.length ∣ q.length) (hkd2 : min kcs2 k.length ∣ k.length) :
    rabe_attention q k v qcs1 kcs1 = rabe_attention q k v qcs2 kcs2 ∧
    rabe_cosine_sim_attention q k v qcs1 kcs1 scale eps =
      rabe_cosine_sim_attention q k v qcs2 kcs2 scale eps := by
  constructor
  · rw [rabe_attention_eq_naive q k v qcs1 kcs1 hqc1 hkc1 hq0 hk0 hkv hqu hk hv hqd1 hkd1,
      rabe_attention_eq_naive q k v qcs2 kcs2 hqc2 hkc2 hq0 hk0 hkv hqu hk hv hqd2 hkd2]
  · rw [rabe_cos_eq_ref q k v qcs1 kcs1 scale eps hqc1 hkc1 hq0 hk0 hkv hqu hk hv hqd1 hkd1,
      rabe_cos_eq_ref q k v qcs2 kcs2 scale eps hqc2 hkc2 hq0 hk0 hkv hqu hk hv hqd2 hkd2]

theorem claim_C6_witness :
    (0:Nat) < 1 ∧ (0:Nat) < 2 ∧ (0:Nat) < ([[(0:ℝ)]] : Mat).length ∧
    min 2 ([[(1:ℝ)],[1]] : Mat).length ∣ ([[(1:ℝ)],[1]] : Mat).length ∧
    (rabe_attention [[(0:ℝ)]] [[(1:ℝ)],[1]] [[(1:ℝ)],[1]] 1 1 =
        rabe_attention [[(0:ℝ)]] [[(1:ℝ)],[1]] [[(1:ℝ)],[1]] 2 2 ∧
      rabe_cosine_sim_attention [[(0:ℝ)]] [[(1:ℝ)],[1]] [[(1:ℝ)],[1]] 1 1 16 (1e-5) =
        rabe_cosine_sim_attention [[(0:ℝ)]] [[(1:ℝ)],[1]] [[(1:ℝ)],[1]] 2 2 16 (1e-5)) :=
  ⟨by decide, by decide, by simp, by simp,
    claim_C6 [[(0:ℝ)]] [[(1:ℝ)],[1]] [[(1:ℝ)],[1]] 1 1 2 2 16 (1e-5) (by decide)
      (by decide) (by decide) (by decide) (by simp) (by simp) rfl
      (by simp [uniformRows]) (by simp [uniformRows]) (by simp [uniformRows])
      (by simp) (by simp) (by simp) (by simp)⟩

/-- C7 (counterexample): in Pipeline B, output row 0 depends on query
row 1: with `Q = [[3],[4]]` versus `Q' = [[3],[0]]` (row 0 identical),
`l2norm` divides row 0 by the whole-matrix norm (`5 + 1e-6` versus
`3 + 1e-6`), and row 0 of the two outputs differ. -/
theorem claim_C7_counterexample :
    Option.map (fun m => List.getD m 0 ([] : List ℝ))
        (rabe_cosine_sim_attention [[3],[4]] [[1]] [[1]] 1 1 16 (1e-5)) ≠
      Option.map (fun m => List.getD m 0 ([] : List ℝ))
        (rabe_cosine_sim_attention [[3],[0]] [[1]] [[1]] 1 1 16 (1e-5)) := by
  have h25 : Real.sqrt (3^2 + 4^2 : ℝ) = 5 := by
    rw [show (3^2 + 4^2 : ℝ) = 5^2 by norm_num, Real.sqrt_sq (by norm_num)]
  have h9 : Real.sqrt (3^2 + 0 + (0^2 + 0 + 0) : ℝ) = 3 := by
    rw [show (3^2 + 0 + (0^2 + 0 + 0) : ℝ) = 3^2 by norm_num, Real.sqrt_sq (by norm_num)]
  have h1 : Real.sqrt (1^2 + 0 + 0 : ℝ) = 1 := by
    rw [show (1^2 + 0 + 0 : ℝ) = 1^2 by norm_num, Real.sqrt_sq (by norm_num)]
  simp [rabe_cosine_sim_attention, _query_chunk_cosine_sim_attention,
    _query_chunk_cosine_sim_attention_parts, cosChunkResults, summarize_chunk_cosine,
    kvTiles, chunkStarts, ceilDiv, dynamicSlice2, dynamicSlice, mulMT, matMul, dotRow,
    entry, reshapeStack, l2norm, frobNorm, h25, h9, h1,
    List.range_succ, List.range_zero,
    List.map_append, List.sum_append, List.zipWith_cons_cons, List.getD]
  exact xexp_ne (by norm_num) (by norm_num) (by norm_num)

/-- C7 (amended): for Pipeline A (`rabe_attention`), output row `i`
depends only on `Q` row `i` and on all of `K`, `V`: for any chunk
sizes, two query arrays of the same shape that agree on row `i` give
the same row `i` of the (optional) output.  For Pipeline B the original
claim is false, because `l2norm` couples all rows through the
whole-matrix norm (see the counterexample). -/
theorem claim_C7 (q q2 k v : Mat) (qcs kcs : Nat) {i : Nat}
    (hqc : 0 < qcs) (hkc : 0 < kcs) (hk0 : 0 < k.length) (hkv : v.length = k.length)
    (hv : uniformRows v ((v.head?.getD []).length))
    (hlen : q2.length = q.length)
    (hd : (q2.head?.getD []).length = (q.head?.getD []).length)
    (hrow : q2.getD i [] = q.getD i []) (hi : i < q.length) :
    Option.map (fun m => m.getD i []) (rabe_attention q k v qcs kcs) =
      Option.map (fun m => m.getD i []) (rabe_attention q2 k v qcs kcs) :=
  rabe_attention_row_dep q q2 k v qcs kcs hqc hkc hk0 hkv hv hlen hd hrow hi

theorem claim_C7_witness :
    (0:Nat) < 1 ∧ ([[(1:ℝ)],[3]] : Mat).length = ([[(1:ℝ)],[2]] : Mat).length ∧
    ([[(1:ℝ)],[3]] : Mat).getD 0 [] = ([[(1:ℝ)],[2]] : Mat).getD 0 [] ∧
    (0:Nat) < ([[(1:ℝ)],[2]] : Mat).length ∧
    Option.map (fun m => List.getD m 0 ([] : List ℝ))
        (rabe_attention [[(1:ℝ)],[2]] [[(1:ℝ)]] [[(1:ℝ)]] 1 1) =
      Option.map (fun m => List.getD m 0 ([] : List ℝ))
        (rabe_attention [[(1:ℝ)],[3]] [[(1:ℝ)]] [[(1:ℝ)]] 1 1) :=
  ⟨by decide, rfl, rfl, by simp,
    claim_C7 [[(1:ℝ)],[2]] [[(1:ℝ)],[3]] [[(1:ℝ)]] [[(1:ℝ)]] 1 1 (by decide) (by decide)
      (by simp) rfl (by simp [uniformRows]) rfl (by simp) rfl (by simp)⟩

/-- C8: confirmed.  For `key_length ≥ 1` and a positive key chunk size,
every entry of the accumulated per-row weight denominator (`all_weights`
before the final division) is strictly positive in both pipelines: each
tile contributes a sum of exponentials over a non-empty tile, rescaled
(in Pipeline A) by a positive exponential — so the final division never
divides by zero. -/
theorem claim_C8 (q k v : Mat) (kcs : Nat) (scale : ℝ) {i : Nat} (hkc : 0 < kcs)
    (hk0 : 0 < k.length) (hi : i < q.length) :
    0 < (_query_chunk_attention_parts q k v kcs).2.getD i 0 ∧
    0 < (_query_chunk_cosine_sim_attention_parts q k v kcs scale).2.getD i 0 := by
  constructor
  · rw [partsA_weights_getD q k v kcs hi]
    exact rowDenA_pos _ hkc hk0
  · rw [partsB_weights_getD q k v kcs scale hi]
    exact rowDenB_pos scale _ hkc hk0

theorem claim_C8_witness :
    (0:Nat) < 2 ∧ (0:Nat) < ([[(7:ℝ)]] : Mat).length ∧
    (0:Nat) < ([[(5:ℝ)]] : Mat).length ∧
    (0 < (_query_chunk_attention_parts [[(5:ℝ)]] [[(7:ℝ)]] [[(9:ℝ)]] 2).2.getD 0 0 ∧
      0 < (_query_chunk_cosine_sim_attention_parts [[(5:ℝ)]] [[(7:ℝ)]] [[(9:ℝ)]]
        2 3).2.getD 0 0) :=
  ⟨by decide, by simp, by simp,
    claim_C8 [[(5:ℝ)]] [[(7:ℝ)]] [[(9:ℝ)]] 2 3 (by decide) (by simp) (by simp)⟩

/-- C9 (counterexample): a `K`/`V` row-count mismatch is not rejected:
with `K` of 1 row and `V` of 2 rows both entry points return an output
(computed from the first `key_length` rows of `V`) instead of failing —
the code performs no shape validation and no slice here violates a
primitive's bounds. -/
theorem claim_C9_counterexample :
    ([[(1:ℝ)],[5]] : Mat).length ≠ ([[(0:ℝ)]] : Mat).length ∧
    (rabe_attention [[0]] [[0]] [[1],[5]] 1 1).isSome = true ∧
    (rabe_cosine_sim_attention [[0]] [[0]] [[1],[5]] 1 1 16 (1e-5)).isSome = true :=
  ⟨by simp, rfl, rfl⟩

/-- C9 (amended): the entry points perform no shape validation of their
own.  When `V` has at least `key_length` rows and the effective key
tile divides `key_length`, a `K`/`V` row-count mismatch is silently
accepted: both entry points return exactly the output they produce on
`V` truncated to `key_length` rows — extra value rows are ignored, and
no failure occurs.  (A `Q`/`K` head-dimension mismatch would only be
rejected inside the external contraction primitive, not by this
code.) -/
theorem claim_C9 (q k v : Mat) (qcs kcs : Nat) (scale eps : ℝ) (hkc : 0 < kcs)
    (hk0 : 0 < k.length) (hvlen : k.length ≤ v.length)
    (hdvd : min kcs k.length ∣ k.length) :
    rabe_attention q k (v.take k.length) qcs kcs = rabe_attention q k v qcs kcs ∧
    rabe_cosine_sim_attention q k (v.take k.length) qcs kcs scale eps =
      rabe_cosine_sim_attention q k v qcs kcs scale eps :=
  ⟨rabe_attention_truncate_v q k v qcs kcs hkc hk0 hvlen hdvd,
    rabe_cos_truncate_v q k v qcs kcs scale eps hkc hk0 hvlen hdvd⟩

theorem claim_C9_witness :
    (0:Nat) < 1 ∧ (0:Nat) < ([[(1:ℝ)]] : Mat).length ∧
    ([[(1:ℝ)]] : Mat).length ≤ ([[(2:ℝ)],[3]] : Mat).length ∧
    (rabe_attention [[(4:ℝ)]] [[(1:ℝ)]]
        (([[(2:ℝ)],[3]] : Mat).take ([[(1:ℝ)]] : Mat).length) 1 1 =
        rabe_attention [[(4:ℝ)]] [[(1:ℝ)]] [[(2:ℝ)],[3]] 1 1 ∧
      rabe_cosine_sim_attention [[(4:ℝ)]] [[(1:ℝ)]]
          (([[(2:ℝ)],[3]] : Mat).take ([[(1:ℝ)]] : Mat).length) 1 1 16 (1e-5) =
        rabe_cosine_sim_attention [[(4:ℝ)]] [[(1:ℝ)]] [[(2:ℝ)],[3]] 1 1 16 (1e-5)) :=
  ⟨by decide, by simp, by simp,
    claim_C9 [[(4:ℝ)]] [[(1:ℝ)]] [[(2:ℝ)],[3]] 1 1 16 (1e-5) (by decide) (by simp)
      (by simp) (by simp)⟩

/-- C10: confirmed.  The `eps` parameter of
`rabe_cosine_sim_attention` is never forwarded to `l2norm` (which uses
its own built-in default `1e-6`), so the output is identical for any
two values of `eps`. -/
theorem claim_C10 (q k v : Mat) (qcs kcs : Nat) (scale e1 e2 : ℝ) :
    rabe_cosine_sim_attention q k v qcs kcs scale e1 =
      rabe_cosine_sim_attention q k v qcs kcs scale e2 := rfl

end

end Rabe
